import Mathlib

set_option maxHeartbeats 1000000

namespace GraphSpec

/-- Node identifiers: the Python code uses arbitrary hashable values; we use naturals. -/
abbrev NodeId := Nat

/-- An open attribute mapping (string keys to string values), the payload of nodes and edges. -/
abbrev Attrs := List (String × String)

/-- Association-list lookup, modelling a Python dict read d[k] (None when the key is absent). -/
def dictGet? {κ β : Type} [DecidableEq κ] (d : List (κ × β)) (k : κ) : Option β :=
  match d with
  | [] => none
  | (k1, v1) :: rest => if k1 = k then some v1 else dictGet? rest k

/-- Key membership, modelling the Python test k in d. -/
def dictMem {κ β : Type} [DecidableEq κ] (d : List (κ × β)) (k : κ) : Bool :=
  match d with
  | [] => false
  | (k1, _) :: rest => if k1 = k then true else dictMem rest k

/-- Python dict assignment d[k] = v: replaces the value in place when the key exists
(keeping its insertion position), otherwise appends at the end. -/
def dictSet {κ β : Type} [DecidableEq κ] (d : List (κ × β)) (k : κ) (v : β) : List (κ × β) :=
  match d with
  | [] => [(k, v)]
  | (k1, v1) :: rest => if k1 = k then (k, v) :: rest else (k1, v1) :: dictSet rest k v

/-- The graph object of graphmaster.py: node table, adjacency table, the directed flag and
the incrementally maintained root and leaf lists.  The weighted flag and weight attribute
play no role in any of the verified operations and are omitted. -/
structure Graph where
  nodes : List (NodeId × Attrs)
  edges : List (NodeId × List (NodeId × Attrs))
  directed : Bool
  roots : List NodeId
  leaves : List NodeId
deriving Repr, DecidableEq

/-- Graph.__init__. -/
def emptyGraph (directed : Bool) : Graph :=
  { nodes := [], edges := [], directed := directed, roots := [], leaves := [] }

/-- Graph.add_node: creates the node (with empty adjacency, appended to roots and leaves
when directed) unless it already exists; returns the stored node attributes. -/
def add_node (g : Graph) (node_id : NodeId) (attributes : Option Attrs) : Graph × Attrs :=
  if dictMem g.nodes node_id then
    (g, (dictGet? g.nodes node_id).getD [])
  else
    let attrs := attributes.getD []
    let g' : Graph :=
      { g with
        nodes := dictSet g.nodes node_id attrs
        edges := dictSet g.edges node_id []
        roots := if g.directed then g.roots ++ [node_id] else g.roots
        leaves := if g.directed then g.leaves ++ [node_id] else g.leaves }
    (g', attrs)

/-- Graph.add_edge: ensures both endpoints exist, installs the edge attributes only when
the ordered pair has no edge yet (also installing the symmetric entry when undirected,
or updating the root and leaf lists when directed), and returns the stored edge attributes. -/
def add_edge (g : Graph) (node_id1 node_id2 : NodeId)
    (attributes node1_attributes node2_attributes : Option Attrs) : Graph × Attrs :=
  let g1 := if dictMem g.nodes node_id1 then g else (add_node g node_id1 node1_attributes).1
  let g2 := if dictMem g1.nodes node_id2 then g1 else (add_node g1 node_id2 node2_attributes).1
  let adj1 := (dictGet? g2.edges node_id1).getD []
  let g3 :=
    if dictMem adj1 node_id2 then g2
    else
      let attrs := attributes.getD []
      let gE : Graph := { g2 with edges := dictSet g2.edges node_id1 (dictSet adj1 node_id2 attrs) }
      if !gE.directed then
        { gE with
          edges := dictSet gE.edges node_id2
            (dictSet ((dictGet? gE.edges node_id2).getD []) node_id1 attrs) }
      else
        { gE with
          roots := gE.roots.erase node_id2
          leaves := gE.leaves.erase node_id1 }
  (g3, (dictGet? ((dictGet? g3.edges node_id1).getD []) node_id2).getD [])

/-- A build step: one add_node or add_edge call with its optional attribute payloads. -/
inductive Op
  | node (id : NodeId) (attrs : Option Attrs)
  | edge (u v : NodeId) (attrs uAttrs vAttrs : Option Attrs)
deriving Repr, DecidableEq

/-- Apply one build step. -/
def applyOp (g : Graph) (op : Op) : Graph :=
  match op with
  | .node id attrs => (add_node g id attrs).1
  | .edge u v attrs ua va => (add_edge g u v attrs ua va).1

/-- A graph built by a finite sequence of add_node and add_edge calls. -/
def buildGraph (directed : Bool) (ops : List Op) : Graph :=
  ops.foldl applyOp (emptyGraph directed)

/-- The key list of the node table. -/
def nodeKeys (g : Graph) : List NodeId := g.nodes.map Prod.fst

/-- The key list of the adjacency table. -/
def edgeKeys (g : Graph) : List NodeId := g.edges.map Prod.fst

/-- The graph has an edge from u to v. -/
def edgeMem (g : Graph) (u v : NodeId) : Bool :=
  match dictGet? g.edges u with
  | some d => dictMem d v
  | none => false

/-- The stored attributes of the edge from u to v, when present. -/
def edgeAttr? (g : Graph) (u v : NodeId) : Option Attrs :=
  match dictGet? g.edges u with
  | some d => dictGet? d v
  | none => none

/-- All ordered edge pairs of the adjacency table. -/
def edgePairs (g : Graph) : List (NodeId × NodeId) :=
  g.edges.flatMap (fun p => p.2.map (fun q => (p.1, q.1)))

/-- Well-formedness maintained by the construction API (the invariants of spec section 3):
node keys are distinct, adjacency keys equal node keys, each adjacency list has distinct
keys and all its targets are nodes. -/
def WF (g : Graph) : Prop :=
  (nodeKeys g).Nodup ∧ edgeKeys g = nodeKeys g ∧
  (∀ p ∈ g.edges, (p.2.map Prod.fst).Nodup) ∧
  (∀ p ∈ g.edges, ∀ q ∈ p.2, q.1 ∈ nodeKeys g)

instance (g : Graph) : Decidable (WF g) := by
  unfold WF; infer_instance

/-- Directed reachability along edges (zero or more steps). -/
def Reach (g : Graph) (u v : NodeId) : Prop :=
  Relation.ReflTransGen (fun a b => edgeMem g a b = true) u v

/-- The graph has no nonempty directed cycle. -/
def Acyclic (g : Graph) : Prop :=
  ∀ n, ¬ Relation.TransGen (fun a b => edgeMem g a b = true) n n

/-- Outcome of running an operation: a returned value, a raised KeyError, a raised
ValueError, or exhaustion of the recursion fuel supplied by the model (the marker of a
Python run that would not have stopped yet). -/
inductive Res (α : Type)
  | ok (a : α)
  | keyError (k : NodeId)
  | valueError
  | fuel
deriving Repr, DecidableEq

/-- A result modelling a Python call that returned or raised (rather than still running). -/
def Res.isDone {α : Type} : Res α → Bool
  | .fuel => false
  | _ => true

/-- Node states used by the traversals. -/
inductive NodeState
  | unexplored
  | discovered
  | finished
deriving Repr, DecidableEq

/-- Pointwise update of a function-backed table, modelling d[k] = v on a dict whose read
sites only ever use present keys. -/
def upd {α : Type} (f : Nat → α) (k : Nat) (v : α) : Nat → α :=
  fun x => if x = k then v else f x

/-- The inner for-loop of Graph.bfs over the adjacency keys of the dequeued node u: each
still unexplored neighbor is discovered, given distance distance(u) + 1 and predecessor u,
and appended to the queue. -/
def bfs_scan (u : NodeId) (ns : List NodeId) (state : NodeId → NodeState)
    (distance : NodeId → Option Nat) (predecessor : NodeId → Option NodeId)
    (queue : List NodeId) :
    (NodeId → NodeState) × (NodeId → Option Nat) × (NodeId → Option NodeId) × List NodeId :=
  match ns with
  | [] => (state, distance, predecessor, queue)
  | v :: rest =>
    if state v = .unexplored then
      bfs_scan u rest (upd state v .discovered) (upd distance v ((distance u).map (· + 1)))
        (upd predecessor v (some u)) (queue ++ [v])
    else
      bfs_scan u rest state distance predecessor queue

/-- The while-loop of Graph.bfs: dequeue u, scan its adjacency entry (a missing entry is
the Python KeyError on self.edges), then mark u finished. -/
def bfs_loop (g : Graph) :
    List NodeId → (NodeId → NodeState) → (NodeId → Option Nat) → (NodeId → Option NodeId) →
    Nat → Res ((NodeId → NodeState) × (NodeId → Option Nat) × (NodeId → Option NodeId))
  | [], state, distance, predecessor, _ => .ok (state, distance, predecessor)
  | _ :: _, _, _, _, 0 => .fuel
  | u :: rest, state, distance, predecessor, fuelN + 1 =>
    match dictGet? g.edges u with
    | none => .keyError u
    | some adjU =>
      match bfs_scan u (adjU.map Prod.fst) state distance predecessor rest with
      | (state1, distance1, predecessor1, queue1) =>
        bfs_loop g queue1 (upd state1 u .finished) distance1 predecessor1 fuelN

/-- Graph.bfs: every node starts unexplored with infinite distance (None here) and no
predecessor; the start node is marked discovered at distance 0 and enqueued.  The fuel
1 + 2 * node count exceeds the dequeue count of every run on a well-formed graph. -/
def bfs (g : Graph) (start_node_id : NodeId) :
    Res ((NodeId → NodeState) × (NodeId → Option Nat) × (NodeId → Option NodeId)) :=
  bfs_loop g [start_node_id] (upd (fun _ => .unexplored) start_node_id .discovered)
    (upd (fun _ => none) start_node_id (some 0)) (fun _ => none) (1 + 2 * g.nodes.length)

/-- DFS edge classifications. -/
inductive EdgeClass
  | tree
  | back
  | cross
  | forward
deriving Repr, DecidableEq

/-- The five tables threaded through Graph.dfs_visit.  The classification table is an
association list over ordered pairs, mirroring the Python dict keyed by edges. -/
structure DfsState where
  state : NodeId → NodeState
  predecessor : NodeId → Option NodeId
  discovered : NodeId → Option Nat
  classification : List ((NodeId × NodeId) × EdgeClass)
  finished : NodeId → Option Nat

/-- The for-loop over the adjacency keys of vertex in Graph.dfs_visit, parameterized by
the recursive visit performed on each still unexplored neighbor.  The vertex local time is
passed down by value, exactly as in the source. -/
def dfs_scan (visit : NodeId → Nat → DfsState → Res DfsState) (vertex : NodeId) (time : Nat) :
    List NodeId → DfsState → Res DfsState
  | [], s => .ok s
  | v :: rest, s =>
    if s.state v = .unexplored then
      let s1 : DfsState :=
        { s with
          predecessor := upd s.predecessor v (some vertex)
          classification := dictSet s.classification (vertex, v) .tree }
      match visit v time s1 with
      | .ok s2 => dfs_scan visit vertex time rest s2
      | e => e
    else if s.state v = .discovered then
      dfs_scan visit vertex time rest
        { s with classification := dictSet s.classification (vertex, v) .back }
    else if (s.discovered vertex).getD 0 > (s.discovered v).getD 0 then
      dfs_scan visit vertex time rest
        { s with classification := dictSet s.classification (vertex, v) .cross }
    else
      dfs_scan visit vertex time rest
        { s with classification := dictSet s.classification (vertex, v) .forward }

/-- Graph.dfs_visit with fuel: mark the vertex discovered at time + 1, scan its adjacency
entry (recursing with one level less fuel on still unexplored neighbors), then mark the
vertex finished at its local time + 1 — the time counter is passed by value as in the
source, so the recursion never feeds elapsed time back to the caller. -/
def dfs_visit (g : Graph) : Nat → NodeId → Nat → DfsState → Res DfsState
  | 0, _, _, _ => .fuel
  | fuelN + 1, vertex, time, s =>
    let time1 := time + 1
    let s1 : DfsState :=
      { s with
        state := upd s.state vertex .discovered
        discovered := upd s.discovered vertex (some time1) }
    match dictGet? g.edges vertex with
    | none => .keyError vertex
    | some adjV =>
      match dfs_scan (dfs_visit g fuelN) vertex time1 (adjV.map Prod.fst) s1 with
      | .ok s2 =>
        .ok { s2 with
              state := upd s2.state vertex .finished
              finished := upd s2.finished vertex (some (time1 + 1)) }
      | e => e

/-- The outer loop of Graph.dfs over the node table, visiting each still unexplored node
with time 0 (the Python time variable is never updated, the recursion taking it by value). -/
def dfs_outer (g : Graph) : List NodeId → DfsState → Res DfsState
  | [], s => .ok s
  | v :: rest, s =>
    if s.state v = .unexplored then
      match dfs_visit g (g.nodes.length + 1) v 0 s with
      | .ok s1 => dfs_outer g rest s1
      | e => e
    else
      dfs_outer g rest s

/-- Graph.dfs: initialize all tables and run the forest traversal. -/
def dfs (g : Graph) : Res DfsState :=
  dfs_outer g (nodeKeys g)
    { state := fun _ => .unexplored
      predecessor := fun _ => none
      discovered := fun _ => none
      classification := []
      finished := fun _ => none }

/-- Graph.is_acyclic: run dfs and scan the classification table for a BACK EDGE. -/
def is_acyclic (g : Graph) : Res Bool :=
  match dfs g with
  | .ok s => .ok (!(s.classification.any (fun kv => kv.2 == EdgeClass.back)))
  | .keyError k => .keyError k
  | .valueError => .valueError
  | .fuel => .fuel

/-- The predecessor-following reconstruction loop of Graph.get_shortest_path, collecting
nodes from the target back to the start. -/
def path_loop (predecessor : NodeId → Option NodeId) :
    Option NodeId → List NodeId → Nat → Res (List NodeId)
  | none, path, _ => .ok path
  | some _, _, 0 => .fuel
  | some current, path, fuelN + 1 =>
    path_loop predecessor (predecessor current) (path ++ [current]) fuelN

/-- Graph.get_shortest_path: ValueError when either endpoint is absent from the node
table; the empty path when the target distance is infinite; otherwise the reversed
predecessor chain from the target (fuel one more than the target distance). -/
def get_shortest_path (g : Graph) (start_node_id end_node_id : NodeId) : Res (List NodeId) :=
  if !(dictMem g.nodes start_node_id) then .valueError
  else if !(dictMem g.nodes end_node_id) then .valueError
  else
    match bfs g start_node_id with
    | .ok (_, distance, predecessor) =>
      match distance end_node_id with
      | none => .ok []
      | some d =>
        match path_loop predecessor (some end_node_id) [] (d + 1) with
        | .ok path => .ok path.reverse
        | .keyError k => .keyError k
        | .valueError => .valueError
        | .fuel => .fuel
    | .keyError k => .keyError k
    | .valueError => .valueError
    | .fuel => .fuel

/-- The inner for-loop of Graph.max_depth over the leaves for one root: the depth entry of
the root is reset to 0 before each leaf is examined, exactly as in the source. -/
def depth_leaves (g : Graph) (node_start : NodeId) :
    List NodeId → List (NodeId × Nat) → Res (List (NodeId × Nat))
  | [], depths => .ok depths
  | node_end :: rest, depths =>
    let depths1 := dictSet depths node_start 0
    match get_shortest_path g node_start node_end with
    | .ok path =>
      if !path.isEmpty then
        depth_leaves g node_start rest
          (dictSet depths1 node_start
            (max ((dictGet? depths1 node_start).getD 0) (path.length - 1)))
      else
        depth_leaves g node_start rest depths1
    | .keyError k => .keyError k
    | .valueError => .valueError
    | .fuel => .fuel

/-- The outer for-loop of Graph.max_depth over the roots. -/
def depth_roots (g : Graph) : List NodeId → List (NodeId × Nat) → Res (List (NodeId × Nat))
  | [], depths => .ok depths
  | node_start :: rest, depths =>
    match depth_leaves g node_start g.leaves depths with
    | .ok depths1 => depth_roots g rest depths1
    | .keyError k => .keyError k
    | .valueError => .valueError
    | .fuel => .fuel

/-- Graph.max_depth: ValueError on a cyclic graph, otherwise the maximum of the values of
the depths table (the Python max of an empty dict also raises ValueError). -/
def max_depth (g : Graph) : Res Nat :=
  match is_acyclic g with
  | .ok false => .valueError
  | .ok true =>
    match depth_roots g g.roots [] with
    | .ok [] => .valueError
    | .ok (d :: ds) => .ok (ds.foldl (fun m p => max m p.2) d.2)
    | .keyError k => .keyError k
    | .valueError => .valueError
    | .fuel => .fuel
  | .keyError k => .keyError k
  | .valueError => .valueError
  | .fuel => .fuel

/-- The for-loop over the neighbors of the current node in dfs_topological, parameterized
by the recursive visit performed on each unvisited neighbor. -/
def topo_scan
    (visit : NodeId → (NodeId → Bool) → List NodeId → Res ((NodeId → Bool) × List NodeId)) :
    List NodeId → (NodeId → Bool) → List NodeId → Res ((NodeId → Bool) × List NodeId)
  | [], visited, stack => .ok (visited, stack)
  | v :: rest, visited, stack =>
    if visited v then topo_scan visit rest visited stack
    else
      match visit v visited stack with
      | .ok (visited1, stack1) => topo_scan visit rest visited1 stack1
      | e => e

/-- dfs_topological with fuel: mark the node visited, recurse into each still unvisited
neighbor, then append the node to the stack. -/
def topo_visit (g : Graph) :
    Nat → NodeId → (NodeId → Bool) → List NodeId → Res ((NodeId → Bool) × List NodeId)
  | 0, _, _, _ => .fuel
  | fuelN + 1, v, visited, stack =>
    let visited1 := upd visited v true
    match dictGet? g.edges v with
    | none => .keyError v
    | some adjV =>
      match topo_scan (topo_visit g fuelN) (adjV.map Prod.fst) visited1 stack with
      | .ok (visited2, stack2) => .ok (visited2, stack2 ++ [v])
      | e => e

/-- The outer loop of Graph.topological_sort over the node table. -/
def topo_outer (g : Graph) :
    List NodeId → (NodeId → Bool) → List NodeId → Res ((NodeId → Bool) × List NodeId)
  | [], visited, stack => .ok (visited, stack)
  | n :: rest, visited, stack =>
    if visited n then topo_outer g rest visited stack
    else
      match topo_visit g (g.nodes.length + 1) n visited stack with
      | .ok (visited1, stack1) => topo_outer g rest visited1 stack1
      | e => e

/-- Graph.topological_sort: ValueError unless is_acyclic, then the reversed DFS stack. -/
def topological_sort (g : Graph) : Res (List NodeId) :=
  match is_acyclic g with
  | .ok false => .valueError
  | .ok true =>
    match topo_outer g (nodeKeys g) (fun _ => false) [] with
    | .ok (_, stack) => .ok stack.reverse
    | .keyError k => .keyError k
    | .valueError => .valueError
    | .fuel => .fuel
  | .keyError k => .keyError k
  | .valueError => .valueError
  | .fuel => .fuel

/-- The stack loop shared by get_descendants and get_ascendants: pop the top node, look up
the nodes it yields (None modelling a KeyError), append them to the output and push them —
with no visited set.  The list head models the top of the Python stack, so pushing the
yielded nodes in order is prepending their reversal. -/
def push_loop (next : NodeId → Option (List NodeId)) :
    List NodeId → List NodeId → Nat → Res (List NodeId)
  | [], acc, _ => .ok acc
  | _ :: _, _, 0 => .fuel
  | current :: rest, acc, fuelN + 1 =>
    match next current with
    | none => .keyError current
    | some ns => push_loop next (ns.reverse ++ rest) (acc ++ ns) fuelN

/-- The nodes pushed by get_descendants: the adjacency keys of the current node. -/
def desc_next (g : Graph) (current : NodeId) : Option (List NodeId) :=
  (dictGet? g.edges current).map (fun adjacent => adjacent.map Prod.fst)

/-- The nodes pushed by get_ascendants: every node whose adjacency entry contains the
current node (a scan of the whole adjacency table, which cannot raise). -/
def asc_next (g : Graph) (current : NodeId) : Option (List NodeId) :=
  some ((g.edges.filter (fun p => dictMem p.2 current)).map Prod.fst)

/-- Graph.get_descendants with fuel: the directed/presence guard (on the adjacency table),
then the unbounded stack traversal. -/
def get_descendants (g : Graph) (node_id : NodeId) (fuelN : Nat) : Res (List NodeId) :=
  if g.directed && dictMem g.edges node_id then push_loop (desc_next g) [node_id] [] fuelN
  else .valueError

/-- Graph.get_ascendants with fuel: the directed/presence guard (on the node table), then
the unbounded stack traversal. -/
def get_ascendants (g : Graph) (node_id : NodeId) (fuelN : Nat) : Res (List NodeId) :=
  if g.directed && dictMem g.nodes node_id then push_loop (asc_next g) [node_id] [] fuelN
  else .valueError

/-- Shorthand for an attribute-free add_edge build step. -/
def opE (u v : NodeId) : Op := .edge u v none none none

/-- Edges 0→1, 1→2, 0→3: root 0, leaves [2, 3] in insertion order; the longest
root-to-leaf distance is 2 (to leaf 2) but leaf 3 at distance 1 is examined last. -/
def gC1 : Graph := buildGraph true [opE 0 1, opE 1 2, opE 0 3]

/-- A single edge 0→1. -/
def gC2 : Graph := buildGraph true [opE 0 1]

/-- The two-cycle 0→1, 1→0. -/
def gCyc : Graph := buildGraph true [opE 0 1, opE 1 0]

/-- The finish time that Graph.dfs records for a node (none when dfs raised or ran out
of fuel, or never reached the node). -/
def dfs_finished_at (g : Graph) (n : NodeId) : Option Nat :=
  match dfs g with
  | .ok s => s.finished n
  | _ => none

/-- The discovery time that Graph.dfs records for a node. -/
def dfs_discovered_at (g : Graph) (n : NodeId) : Option Nat :=
  match dfs g with
  | .ok s => s.discovered n
  | _ => none

/-- The DFS-tree predecessor that Graph.dfs records for a node. -/
def dfs_predecessor_at (g : Graph) (n : NodeId) : Option NodeId :=
  match dfs g with
  | .ok s => s.predecessor n
  | _ => none

/-- Some edge of the graph targets n. -/
def hasIncoming (g : Graph) (n : NodeId) : Bool :=
  g.edges.any (fun p => dictMem p.2 n)

/-- Some edge of the graph originates from n. -/
def hasOutgoing (g : Graph) (n : NodeId) : Bool :=
  match dictGet? g.edges n with
  | some d => !d.isEmpty
  | none => false

/-- Every stored edge has its symmetric counterpart (holds for undirected-built graphs). -/
def SymG (g : Graph) : Prop :=
  ∀ u v, edgeMem g u v = true → edgeMem g v u = true

/-- The incremental root/leaf bookkeeping is exact: the root list holds precisely the
nodes with no incoming edge, the leaf list precisely those with no outgoing edge, each
at most once. -/
def RootsLeavesExact (g : Graph) : Prop :=
  (∀ n, n ∈ g.roots ↔ (n ∈ nodeKeys g ∧ hasIncoming g n = false)) ∧ g.roots.Nodup ∧
  (∀ n, n ∈ g.leaves ↔ (n ∈ nodeKeys g ∧ hasOutgoing g n = false)) ∧ g.leaves.Nodup

/-- Number of still unexplored nodes of the node table (the quantity every discovery
strictly decreases, used to justify the fuel supplies). -/
def unexploredCount (g : Graph) (state : NodeId → NodeState) : Nat :=
  ((nodeKeys g).filter (fun n => state n == NodeState.unexplored)).length

/-- Invariant of the Graph.bfs queue loop relating the three tables and the queue;
with an empty queue it describes the returned triple. -/
structure BfsInv (g : Graph) (start : NodeId) (state : NodeId → NodeState)
    (dist : NodeId → Option Nat) (pred : NodeId → Option NodeId)
    (queue : List NodeId) : Prop where
  unex_dist : ∀ n, state n = .unexplored ↔ dist n = none
  pred_state : ∀ n, pred n ≠ none → state n ≠ .unexplored ∧ n ≠ start
  nonstart_pred : ∀ n, state n ≠ .unexplored → n ≠ start → pred n ≠ none
  queue_keys : ∀ x ∈ queue, x ∈ nodeKeys g
  queue_disc : ∀ x ∈ queue, state x = .discovered
  disc_queue : ∀ n, state n = .discovered → n ∈ queue
  queue_nodup : queue.Nodup
  queue_sorted : List.Pairwise (fun a b => (dist a).getD 0 ≤ (dist b).getD 0) queue
  queue_band : ∀ h t, queue = h :: t → ∀ x ∈ queue, (dist x).getD 0 ≤ (dist h).getD 0 + 1
  fin_band : ∀ h t, queue = h :: t → ∀ n, state n = .finished →
    (dist n).getD 0 ≤ (dist h).getD 0
  fin_closed : ∀ a, state a = .finished → ∀ b, edgeMem g a b = true →
    state b ≠ .unexplored ∧ (dist b).getD 0 ≤ (dist a).getD 0 + 1
  reach : ∀ n, state n ≠ .unexplored → Reach g start n
  pred_edge : ∀ n p, pred n = some p → edgeMem g p n = true ∧ state p ≠ .unexplored ∧
    ∃ dp, dist p = some dp ∧ dist n = some (dp + 1)
  start_facts : dist start = some 0 ∧ state start ≠ .unexplored ∧ pred start = none
  dist_zero : ∀ n, dist n = some 0 → n = start

/-- Number of still unvisited nodes of the node table (decreases at every
dfs_topological call). -/
def unvisitedCount (g : Graph) (visited : NodeId → Bool) : Nat :=
  ((nodeKeys g).filter (fun n => !visited n)).length

/-- Structural sanity of the classification table: every classified pair starts at an
already met vertex, and pairs are classified at most once. -/
def ClassOk (s : DfsState) : Prop :=
  (∀ a b k, dictGet? s.classification (a, b) = some k → s.state a ≠ .unexplored) ∧
  (s.classification.map Prod.fst).Nodup

/-- When a vertex is finished, each of its adjacency targets is finished too or the
edge to it was classified BACK (the key instantaneous invariant of dfs_visit). -/
def Inv3 (g : Graph) (s : DfsState) : Prop :=
  ∀ a, s.state a = .finished → ∀ b, edgeMem g a b = true →
    (s.state b = .finished ∨ dictGet? s.classification (a, b) = some EdgeClass.back)

/-- Some pair with a finished source is classified BACK. -/
def HasBackFin (s : DfsState) : Prop :=
  ∃ a b, dictGet? s.classification (a, b) = some EdgeClass.back ∧ s.state a = .finished

/-- No pair is classified BACK. -/
def NoBack (s : DfsState) : Prop :=
  ∀ a b, dictGet? s.classification (a, b) ≠ some EdgeClass.back

/-- Every currently discovered (grey) vertex reaches the target — the recursion-stack
invariant of dfs_visit. -/
def GreyReach (g : Graph) (s : DfsState) (t : NodeId) : Prop :=
  ∀ n, s.state n = .discovered → Reach g n t

/-- The full contract of one dfs_visit call at a given fuel level: it returns, states
move only from unexplored to finished (the visited vertex ending finished), the
classification entries of already met vertices are frozen, the structural and Inv3
invariants are preserved, the unexplored count strictly drops, a newly visited vertex
with a nonempty adjacency forces a BACK entry on symmetric graphs, and on acyclic
graphs no BACK entry appears. -/
abbrev VisitSpec (g : Graph) (fuelN : Nat) : Prop :=
  ∀ (vertex : NodeId) (time : Nat) (s : DfsState),
    s.state vertex = .unexplored → vertex ∈ nodeKeys g → ClassOk s →
    unexploredCount g s.state < fuelN →
    ∃ s', dfs_visit g fuelN vertex time s = Res.ok s' ∧
      (∀ n, s.state n ≠ .unexplored → s'.state n = s.state n) ∧
      s'.state vertex = .finished ∧
      (∀ n, s'.state n ≠ s.state n →
        s.state n = .unexplored ∧ s'.state n = .finished ∧ n ∈ nodeKeys g) ∧
      (∀ a b, s.state a ≠ .unexplored →
        dictGet? s'.classification (a, b) = dictGet? s.classification (a, b)) ∧
      ClassOk s' ∧
      (Inv3 g s → Inv3 g s') ∧
      unexploredCount g s'.state < unexploredCount g s.state ∧
      (SymG g → Inv3 g s → ∀ x, s.state x = .unexplored → s'.state x ≠ .unexplored →
        (∃ adjx, dictGet? g.edges x = some adjx ∧ adjx ≠ []) → HasBackFin s') ∧
      (Acyclic g → GreyReach g s vertex → NoBack s → NoBack s')

/-- The corresponding contract of the neighbor loop of dfs_visit. -/
abbrev ScanSpec (g : Graph) (fuelN : Nat) : Prop :=
  ∀ (vertex : NodeId) (time : Nat) (ns : List NodeId) (s : DfsState),
    s.state vertex = .discovered → (∀ n ∈ ns, n ∈ nodeKeys g) → ns.Nodup →
    (∀ n ∈ ns, edgeMem g vertex n = true) → ClassOk s →
    unexploredCount g s.state < fuelN →
    ∃ s', dfs_scan (dfs_visit g fuelN) vertex time ns s = Res.ok s' ∧
      (∀ n, s.state n ≠ .unexplored → s'.state n = s.state n) ∧
      (∀ n, s'.state n ≠ s.state n →
        s.state n = .unexplored ∧ s'.state n = .finished ∧ n ∈ nodeKeys g) ∧
      (∀ a b, s.state a ≠ .unexplored → a ≠ vertex →
        dictGet? s'.classification (a, b) = dictGet? s.classification (a, b)) ∧
      (∀ b, b ∉ ns →
        dictGet? s'.classification (vertex, b) = dictGet? s.classification (vertex, b)) ∧
      ClassOk s' ∧
      (Inv3 g s → Inv3 g s') ∧
      unexploredCount g s'.state ≤ unexploredCount g s.state ∧
      (∀ v ∈ ns, s'.state v = .finished ∨
        dictGet? s'.classification (vertex, v) = some EdgeClass.back) ∧
      (HasBackFin s → HasBackFin s') ∧
      (SymG g → Inv3 g s → ∀ x, s.state x = .unexplored → s'.state x ≠ .unexplored →
        (∃ adjx, dictGet? g.edges x = some adjx ∧ adjx ≠ []) → HasBackFin s') ∧
      (SymG g → Inv3 g s → ns ≠ [] →
        (HasBackFin s' ∨
         ∃ b ∈ ns, dictGet? s'.classification (vertex, b) = some EdgeClass.back)) ∧
      (Acyclic g → GreyReach g s vertex → NoBack s → NoBack s')

/-- The full contract of one dfs_topological call at a given fuel level, on an acyclic
well-formed graph: it returns, the visited table only grows (exactly by nodes that end on
the stack), the stack grows by a block ending in the visited vertex, and the stack stays
duplicate-free, visited, successor-closed, and free of edges from earlier to later
entries; every visited node off the stack was already visited and off the stack before. -/
abbrev TopoVisitSpec (g : Graph) (fuelN : Nat) : Prop :=
  ∀ (vertex : NodeId) (visited : NodeId → Bool) (stack : List NodeId),
    visited vertex = false → vertex ∈ nodeKeys g →
    stack.Nodup →
    (∀ x ∈ stack, visited x = true) →
    (∀ x ∈ stack, ∀ y, edgeMem g x y = true → y ∈ stack) →
    List.Pairwise (fun a b => edgeMem g a b = false) stack →
    (∀ n, visited n = true → n ∉ stack → Reach g n vertex) →
    unvisitedCount g visited < fuelN →
    ∃ visited2 stack2 mid,
      topo_visit g fuelN vertex visited stack = Res.ok (visited2, stack2) ∧
      stack2 = stack ++ mid ++ [vertex] ∧
      (∀ n, visited n = true → visited2 n = true) ∧
      visited2 vertex = true ∧
      stack2.Nodup ∧
      (∀ x ∈ stack2, visited2 x = true) ∧
      (∀ x ∈ stack2, ∀ y, edgeMem g x y = true → y ∈ stack2) ∧
      List.Pairwise (fun a b => edgeMem g a b = false) stack2 ∧
      (∀ n, visited2 n = true → n ∉ stack2 → visited n = true ∧ n ∉ stack) ∧
      (∀ x ∈ stack2, x ∉ stack → visited x = false) ∧
      (∀ x ∈ stack2, x ∈ stack ∨ x ∈ nodeKeys g) ∧
      unvisitedCount g visited2 < unvisitedCount g visited

/-- The corresponding contract of the neighbor loop of dfs_topological; additionally
every scanned neighbor ends up on the stack. -/
abbrev TopoScanSpec (g : Graph) (fuelN : Nat) : Prop :=
  ∀ (vertex : NodeId) (ns : List NodeId) (visited : NodeId → Bool) (stack : List NodeId),
    visited vertex = true → vertex ∉ stack →
    (∀ n ∈ ns, n ∈ nodeKeys g) →
    (∀ n ∈ ns, edgeMem g vertex n = true) →
    stack.Nodup →
    (∀ x ∈ stack, visited x = true) →
    (∀ x ∈ stack, ∀ y, edgeMem g x y = true → y ∈ stack) →
    List.Pairwise (fun a b => edgeMem g a b = false) stack →
    (∀ n, visited n = true → n ∉ stack → Reach g n vertex) →
    unvisitedCount g visited < fuelN →
    ∃ visited2 stack2 mid,
      topo_scan (topo_visit g fuelN) ns visited stack = Res.ok (visited2, stack2) ∧
      stack2 = stack ++ mid ∧
      (∀ n, visited n = true → visited2 n = true) ∧
      stack2.Nodup ∧
      (∀ x ∈ stack2, visited2 x = true) ∧
      (∀ x ∈ stack2, ∀ y, edgeMem g x y = true → y ∈ stack2) ∧
      List.Pairwise (fun a b => edgeMem g a b = false) stack2 ∧
      (∀ n, visited2 n = true → n ∉ stack2 → visited n = true ∧ n ∉ stack) ∧
      (∀ x ∈ stack2, x ∉ stack → visited x = false) ∧
      (∀ x ∈ stack2, x ∈ stack ∨ x ∈ nodeKeys g) ∧
      unvisitedCount g visited2 ≤ unvisitedCount g visited ∧
      (∀ n ∈ ns, n ∈ stack2)

/-- The call get_descendants(node_id) exhausts every fuel supply: the model of a Python
call that never returns. -/
def descendants_diverge (g : Graph) (node_id : NodeId) : Prop :=
  ∀ fuelN : Nat, get_descendants g node_id fuelN = Res.fuel

-- ### Helper lemmas about the dict model

theorem dictMem_iff_mem_keys {κ β : Type} [DecidableEq κ] (d : List (κ × β)) (k : κ) :
    dictMem d k = true ↔ k ∈ d.map Prod.fst := by
  induction d with
  | nil => simp [dictMem]
  | cons p rest ih =>
    obtain ⟨k1, v1⟩ := p
    simp only [dictMem, List.map_cons, List.mem_cons]
    by_cases h : k1 = k
    · subst h; simp
    · simp only [if_neg h, ih]
      constructor
      · exact fun hm => Or.inr hm
      · rintro (he | hm)
        · exact absurd he.symm h
        · exact hm

theorem dictGet?_eq_none_iff {κ β : Type} [DecidableEq κ] (d : List (κ × β)) (k : κ) :
    dictGet? d k = none ↔ k ∉ d.map Prod.fst := by
  induction d with
  | nil => simp [dictGet?]
  | cons p rest ih =>
    obtain ⟨k1, v1⟩ := p
    simp only [dictGet?, List.map_cons, List.mem_cons]
    by_cases h : k1 = k
    · subst h; simp
    · simp only [if_neg h, ih]
      constructor
      · rintro hn (he | hm)
        · exact h he.symm
        · exact hn hm
      · intro hn hm
        exact hn (Or.inr hm)

theorem dictGet?_isSome_of_mem {κ β : Type} [DecidableEq κ] {d : List (κ × β)} {k : κ}
    (h : k ∈ d.map Prod.fst) : ∃ v, dictGet? d k = some v := by
  cases hv : dictGet? d k with
  | none => exact absurd ((dictGet?_eq_none_iff d k).mp hv) (not_not_intro h)
  | some v => exact ⟨v, rfl⟩

theorem mem_keys_of_dictGet? {κ β : Type} [DecidableEq κ] {d : List (κ × β)} {k : κ} {v : β}
    (h : dictGet? d k = some v) : k ∈ d.map Prod.fst := by
  by_contra hmem
  rw [(dictGet?_eq_none_iff d k).mpr hmem] at h
  exact Option.noConfusion h

theorem dictMem_of_dictGet? {κ β : Type} [DecidableEq κ] {d : List (κ × β)} {k : κ} {v : β}
    (h : dictGet? d k = some v) : dictMem d k = true :=
  (dictMem_iff_mem_keys d k).mpr (mem_keys_of_dictGet? h)

theorem dictGet?_mem_entries {κ β : Type} [DecidableEq κ] {d : List (κ × β)} {k : κ} {v : β}
    (h : dictGet? d k = some v) : (k, v) ∈ d := by
  induction d with
  | nil => exact Option.noConfusion h
  | cons p rest ih =>
    obtain ⟨k1, v1⟩ := p
    by_cases hk : k1 = k
    · subst hk
      simp [dictGet?] at h
      simp [h]
    · simp [dictGet?, hk] at h
      exact List.mem_cons_of_mem _ (ih h)

theorem dictGet?_dictSet_self {κ β : Type} [DecidableEq κ] (d : List (κ × β)) (k : κ) (v : β) :
    dictGet? (dictSet d k v) k = some v := by
  induction d with
  | nil => simp [dictSet, dictGet?]
  | cons p rest ih =>
    obtain ⟨k1, v1⟩ := p
    by_cases h : k1 = k <;> simp [dictSet, dictGet?, h, ih]

theorem dictGet?_dictSet_ne {κ β : Type} [DecidableEq κ] (d : List (κ × β)) (k k1 : κ) (v : β)
    (h : k1 ≠ k) : dictGet? (dictSet d k v) k1 = dictGet? d k1 := by
  have h' : ¬ k = k1 := fun he => h he.symm
  induction d with
  | nil => simp [dictSet, dictGet?, h']
  | cons p rest ih =>
    obtain ⟨ka, va⟩ := p
    by_cases hk : ka = k
    · subst hk
      simp [dictSet, dictGet?, h']
    · simp only [dictSet, if_neg hk, dictGet?]
      by_cases hb : ka = k1 <;> simp [hb, ih]

theorem keys_dictSet_mem {κ β : Type} [DecidableEq κ] (d : List (κ × β)) (k : κ) (v : β)
    (h : k ∈ d.map Prod.fst) : (dictSet d k v).map Prod.fst = d.map Prod.fst := by
  induction d with
  | nil => simp at h
  | cons p rest ih =>
    obtain ⟨k1, v1⟩ := p
    by_cases hk : k1 = k
    · subst hk; simp [dictSet]
    · simp only [List.map_cons, List.mem_cons] at h
      rcases h with he | hm
      · exact absurd he.symm hk
      · simp [dictSet, hk, ih hm]

theorem keys_dictSet_not_mem {κ β : Type} [DecidableEq κ] (d : List (κ × β)) (k : κ) (v : β)
    (h : k ∉ d.map Prod.fst) : (dictSet d k v).map Prod.fst = d.map Prod.fst ++ [k] := by
  induction d with
  | nil => simp [dictSet]
  | cons p rest ih =>
    obtain ⟨k1, v1⟩ := p
    simp only [List.map_cons, List.mem_cons, not_or] at h
    have hk : ¬ k1 = k := fun he => h.1 he.symm
    simp [dictSet, hk, ih h.2]

theorem upd_self {α : Type} (f : Nat → α) (k : Nat) (v : α) : upd f k v k = v := by
  simp [upd]

theorem upd_ne {α : Type} (f : Nat → α) (k x : Nat) (v : α) (h : x ≠ k) :
    upd f k v x = f x := by
  simp [upd, h]

-- ### C7: idempotent node and edge insertion

/-- C7: add_edge on an ordered pair that already has an edge leaves the graph (hence the
stored edge-attribute mapping) unchanged whatever the new payloads, and returns the
existing mapping; likewise add_node on an existing id leaves the graph unchanged and
returns the stored attributes. -/
theorem C7_insert_idempotent (g : Graph) (u v n : NodeId) (ea na : Attrs)
    (a2 ua va a3 : Option Attrs)
    (hu : dictMem g.nodes u = true) (hv : dictMem g.nodes v = true)
    (he : edgeAttr? g u v = some ea) (hn : dictGet? g.nodes n = some na) :
    add_edge g u v a2 ua va = (g, ea) ∧ add_node g n a3 = (g, na) := by
  constructor
  · obtain ⟨d, hd, hdv⟩ : ∃ d, dictGet? g.edges u = some d ∧ dictGet? d v = some ea := by
      unfold edgeAttr? at he
      cases hgu : dictGet? g.edges u with
      | none => rw [hgu] at he; exact Option.noConfusion he
      | some d => rw [hgu] at he; exact ⟨d, rfl, he⟩
    simp [add_edge, hu, hv, hd, dictMem_of_dictGet? hdv, hdv]
  · simp [add_node, dictMem_of_dictGet? hn, hn]

/-- Witness for C7 on a concrete graph: gC2 has the edge 0→1 with empty attributes. -/
theorem C7_insert_idempotent_witness :
    dictMem gC2.nodes 0 = true ∧ dictMem gC2.nodes 1 = true ∧
    edgeAttr? gC2 0 1 = some [] ∧ dictGet? gC2.nodes 0 = some [] ∧
    add_edge gC2 0 1 (some [("w", "1")]) none none = (gC2, []) ∧
    add_node gC2 0 (some [("c", "red")]) = (gC2, []) := by
  refine ⟨by decide, by decide, by decide, by decide, ?_⟩
  have h := C7_insert_idempotent gC2 0 1 0 [] [] (some [("w", "1")]) none none
    (some [("c", "red")]) (by decide) (by decide) (by decide) (by decide)
  exact h

-- ### C1: max_depth keeps only the last leaf of each root

/-- C1: on the acyclic graph gC1 with edges 0→1, 1→2, 0→3 (single root 0, leaves
[2, 3] in insertion order), the shortest paths from the root have 2 edges to leaf 2 and
1 edge to leaf 3, so the claimed maximum over all roots and leaves is 2 — but max_depth
returns 1, because the depths entry of the root is reset to 0 inside the leaf loop and
only the last examined leaf survives. -/
theorem C1_max_depth_last_leaf_only :
    is_acyclic gC1 = Res.ok true ∧
    gC1.roots = [0] ∧ gC1.leaves = [2, 3] ∧
    get_shortest_path gC1 0 2 = Res.ok [0, 1, 2] ∧
    get_shortest_path gC1 0 3 = Res.ok [0, 3] ∧
    max_depth gC1 = Res.ok 1 := by
  exact ⟨by decide, by decide, by decide, by decide, by decide, by decide⟩

-- ### C2: dfs finish times under the by-value time counter

/-- C2: on the graph gC2 with the single edge 0→1, dfs makes node 1 a tree child of node
0 (discovery times 1 and 2), but the time counter is passed by value, so every node
finishes at its own discovery time + 1: the parent 0 finishes at 2 while its descendant
1 finishes at 3 — the parent's finish time is smaller than its descendant's, refuting
the claimed invariant (each finish time does exceed its own discovery time). -/
theorem C2_descendant_finishes_later :
    dfs_predecessor_at gC2 1 = some 0 ∧
    dfs_discovered_at gC2 0 = some 1 ∧ dfs_discovered_at gC2 1 = some 2 ∧
    dfs_finished_at gC2 0 = some 2 ∧ dfs_finished_at gC2 1 = some 3 := by
  exact ⟨by decide, by decide, by decide, by decide, by decide⟩

-- ### C3: descendant traversal on a cyclic graph never stops

theorem push_loop_gCyc_spins : ∀ (fuelN : Nat) (stack acc : List NodeId),
    stack ≠ [] → (∀ x ∈ stack, x = 0 ∨ x = 1) →
    push_loop (desc_next gCyc) stack acc fuelN = Res.fuel := by
  intro f
  induction f with
  | zero =>
    intro stack acc hne _
    cases stack with
    | nil => exact absurd rfl hne
    | cons c rest => rfl
  | succ f ih =>
    intro stack acc hne hmem
    cases stack with
    | nil => exact absurd rfl hne
    | cons c rest =>
      rcases hmem c (List.mem_cons_self c rest) with h0 | h1
      · subst h0
        have hnx : desc_next gCyc 0 = some [1] := by decide
        simp only [push_loop, hnx]
        refine ih _ _ (by simp) ?_
        intro x hx
        rcases List.mem_cons.mp hx with hx1 | hxr
        · exact Or.inr hx1
        · exact hmem x (List.mem_cons_of_mem _ hxr)
      · subst h1
        have hnx : desc_next gCyc 1 = some [0] := by decide
        simp only [push_loop, hnx]
        refine ih _ _ (by simp) ?_
        intro x hx
        rcases List.mem_cons.mp hx with hx1 | hxr
        · exact Or.inl hx1
        · exact hmem x (List.mem_cons_of_mem _ hxr)

/-- C3 counterexample: on the two-cycle 0→1, 1→0 the stack traversal of
get_descendants never empties its stack, so no amount of fuel makes it stop — the
Python loop runs forever on this finite cyclic graph. -/
theorem C3_cycle_never_stops : descendants_diverge gCyc 0 := by
  intro fuelN
  have hguard : (gCyc.directed && dictMem gCyc.edges 0) = true := by decide
  simp only [get_descendants, hguard, if_true]
  exact push_loop_gCyc_spins fuelN [0] [] (by simp) (by intro x hx; simp at hx; exact Or.inl hx)

-- ### C10: bfs on an absent start node raises KeyError

/-- C10: calling bfs directly with a start identifier absent from the node table of a
well-formed graph raises KeyError at the adjacency lookup self.edges[u], not the
documented ValueError: bfs has no absent-node guard, the start is marked discovered and
enqueued, and the first dequeue looks up the missing adjacency key. -/
theorem C10_bfs_missing_start_keyerror (g : Graph) (start : NodeId)
    (hWF : WF g) (habs : start ∉ nodeKeys g) :
    bfs g start = Res.keyError start := by
  obtain ⟨-, hek, -, -⟩ := hWF
  have hnone : dictGet? g.edges start = none := by
    rw [dictGet?_eq_none_iff]
    rw [show g.edges.map Prod.fst = edgeKeys g from rfl, hek]
    exact habs
  obtain ⟨m, hm⟩ : ∃ m, 1 + 2 * g.nodes.length = m + 1 := ⟨2 * g.nodes.length, by omega⟩
  unfold bfs
  rw [hm]
  simp [bfs_loop, hnone]

/-- Witness for C10: node 5 is absent from gC2, and bfs raises KeyError 5 on it. -/
theorem C10_bfs_missing_start_keyerror_witness :
    WF gC2 ∧ 5 ∉ nodeKeys gC2 ∧ bfs gC2 5 = Res.keyError 5 :=
  ⟨by decide, by decide, C10_bfs_missing_start_keyerror gC2 5 (by decide) (by decide)⟩

-- ### More dict lemmas, for the construction invariants

theorem dictMem_eq_isSome {κ β : Type} [DecidableEq κ] (d : List (κ × β)) (k : κ) :
    dictMem d k = (dictGet? d k).isSome := by
  induction d with
  | nil => rfl
  | cons p rest ih =>
    obtain ⟨k1, v1⟩ := p
    by_cases h : k1 = k <;> simp [dictMem, dictGet?, h, ih]

theorem dictMem_dictSet_self {κ β : Type} [DecidableEq κ] (d : List (κ × β)) (k : κ) (v : β) :
    dictMem (dictSet d k v) k = true := by
  rw [dictMem_eq_isSome, dictGet?_dictSet_self]; rfl

theorem dictMem_dictSet_ne {κ β : Type} [DecidableEq κ] (d : List (κ × β)) (k k1 : κ) (v : β)
    (h : k1 ≠ k) : dictMem (dictSet d k v) k1 = dictMem d k1 := by
  rw [dictMem_eq_isSome, dictMem_eq_isSome, dictGet?_dictSet_ne d k k1 v h]

theorem dictSet_of_not_mem {κ β : Type} [DecidableEq κ] (d : List (κ × β)) (k : κ) (v : β)
    (h : k ∉ d.map Prod.fst) : dictSet d k v = d ++ [(k, v)] := by
  induction d with
  | nil => rfl
  | cons p rest ih =>
    obtain ⟨k1, v1⟩ := p
    simp only [List.map_cons, List.mem_cons, not_or] at h
    have hk : ¬ k1 = k := fun he => h.1 he.symm
    simp [dictSet, hk, ih h.2]

theorem nodup_keys_dictSet {κ β : Type} [DecidableEq κ] (d : List (κ × β)) (k : κ) (v : β)
    (h : (d.map Prod.fst).Nodup) : ((dictSet d k v).map Prod.fst).Nodup := by
  by_cases hm : k ∈ d.map Prod.fst
  · rw [keys_dictSet_mem d k v hm]; exact h
  · rw [keys_dictSet_not_mem d k v hm]
    simp [List.nodup_append, h, hm]

theorem mem_dictSet_elim {κ β : Type} [DecidableEq κ] {d : List (κ × β)} {k : κ} {v : β}
    {p : κ × β} (h : p ∈ dictSet d k v) : p = (k, v) ∨ p ∈ d := by
  induction d with
  | nil => simpa [dictSet] using h
  | cons q rest ih =>
    obtain ⟨k1, v1⟩ := q
    by_cases hk : k1 = k
    · subst hk
      simp only [dictSet, if_pos rfl] at h
      rcases List.mem_cons.mp h with h1 | h2
      · exact Or.inl h1
      · exact Or.inr (List.mem_cons_of_mem _ h2)
    · simp only [dictSet, if_neg hk] at h
      rcases List.mem_cons.mp h with h1 | h2
      · exact Or.inr (by simp [h1])
      · rcases ih h2 with h3 | h4
        · exact Or.inl h3
        · exact Or.inr (List.mem_cons_of_mem _ h4)

theorem dictGet?_of_mem_nodup {κ β : Type} [DecidableEq κ] {d : List (κ × β)} {k : κ} {v : β}
    (hnd : (d.map Prod.fst).Nodup) (h : (k, v) ∈ d) : dictGet? d k = some v := by
  induction d with
  | nil => simp at h
  | cons q rest ih =>
    obtain ⟨k1, v1⟩ := q
    simp only [List.map_cons, List.nodup_cons] at hnd
    rcases List.mem_cons.mp h with h1 | h2
    · obtain ⟨h1a, h1b⟩ := Prod.ext_iff.mp h1
      simp only at h1a h1b
      subst h1a; subst h1b
      simp [dictGet?]
    · have hmem : k ∈ rest.map Prod.fst := List.mem_map_of_mem Prod.fst h2
      have hk : ¬ k1 = k := by
        intro he; subst he; exact hnd.1 hmem
      simp only [dictGet?, if_neg hk]
      exact ih hnd.2 h2

theorem hasIncoming_iff (g : Graph) (n : NodeId) (hWF : WF g) :
    hasIncoming g n = true ↔ ∃ u, edgeMem g u n = true := by
  obtain ⟨hnk, hek, -, -⟩ := hWF
  have hnd : (g.edges.map Prod.fst).Nodup := by
    rw [show g.edges.map Prod.fst = edgeKeys g from rfl, hek]; exact hnk
  unfold hasIncoming
  rw [List.any_eq_true]
  constructor
  · rintro ⟨p, hp, hmem⟩
    refine ⟨p.1, ?_⟩
    unfold edgeMem
    rw [dictGet?_of_mem_nodup hnd (by simpa using hp)]
    exact hmem
  · rintro ⟨u, hu⟩
    unfold edgeMem at hu
    cases hgu : dictGet? g.edges u with
    | none => rw [hgu] at hu; exact absurd hu (by simp)
    | some d =>
      rw [hgu] at hu
      exact ⟨(u, d), dictGet?_mem_entries hgu, hu⟩

theorem bool_eq_of_iff {a b : Bool} (h : a = true ↔ b = true) : a = b := by
  cases a <;> cases b <;> simp_all

theorem edgeMem_eq_dictMem_getD (g : Graph) (u v : NodeId) :
    edgeMem g u v = dictMem ((dictGet? g.edges u).getD []) v := by
  unfold edgeMem
  cases dictGet? g.edges u <;> rfl

theorem dictMem_exists_entry {κ β : Type} [DecidableEq κ] {d : List (κ × β)} {k : κ}
    (h : dictMem d k = true) : ∃ v, (k, v) ∈ d := by
  rw [dictMem_iff_mem_keys] at h
  obtain ⟨q, hq, hq1⟩ := List.mem_map.mp h
  exact ⟨q.2, by rw [← hq1]; exact hq⟩

theorem add_node_present (g : Graph) (id : NodeId) (a : Option Attrs)
    (h : dictMem g.nodes id = true) : (add_node g id a).1 = g := by
  simp [add_node, h]

theorem add_node_fresh (g : Graph) (id : NodeId) (a : Option Attrs)
    (h : dictMem g.nodes id = false) :
    (add_node g id a).1 =
      { g with
        nodes := dictSet g.nodes id (a.getD [])
        edges := dictSet g.edges id []
        roots := if g.directed then g.roots ++ [id] else g.roots
        leaves := if g.directed then g.leaves ++ [id] else g.leaves } := by
  simp [add_node, h]

theorem edgeMem_src_mem {g : Graph} {u v : NodeId} (hWF : WF g)
    (h : edgeMem g u v = true) : u ∈ nodeKeys g := by
  obtain ⟨-, hek, -, -⟩ := hWF
  rw [edgeMem_eq_dictMem_getD] at h
  cases hgu : dictGet? g.edges u with
  | none => rw [hgu] at h; simp [dictMem] at h
  | some d =>
    have := mem_keys_of_dictGet? hgu
    rw [show g.edges.map Prod.fst = edgeKeys g from rfl, hek] at this
    exact this

theorem edgeMem_tgt_mem {g : Graph} {u v : NodeId} (hWF : WF g)
    (h : edgeMem g u v = true) : v ∈ nodeKeys g := by
  obtain ⟨-, -, -, htgt⟩ := hWF
  rw [edgeMem_eq_dictMem_getD] at h
  cases hgu : dictGet? g.edges u with
  | none => rw [hgu] at h; simp [dictMem] at h
  | some d =>
    rw [hgu] at h
    simp only [Option.getD_some] at h
    obtain ⟨attrs, hattrs⟩ := dictMem_exists_entry h
    exact htgt (u, d) (dictGet?_mem_entries hgu) (v, attrs) hattrs

theorem not_mem_nodeKeys_of_not_dictMem {g : Graph} {id : NodeId}
    (h : dictMem g.nodes id = false) : id ∉ nodeKeys g := by
  intro hmem
  have hc := (dictMem_iff_mem_keys g.nodes id).mpr hmem
  rw [h] at hc
  exact Bool.noConfusion hc

theorem WF_add_node (g : Graph) (id : NodeId) (a : Option Attrs) (hWF : WF g) :
    WF (add_node g id a).1 := by
  by_cases h : dictMem g.nodes id = true
  · rw [add_node_present g id a h]; exact hWF
  · have hf : dictMem g.nodes id = false := by simp [Bool.not_eq_true] at h; exact h
    rw [add_node_fresh g id a hf]
    obtain ⟨hnk, hek, hadj, htgt⟩ := hWF
    have hid_n : id ∉ nodeKeys g := not_mem_nodeKeys_of_not_dictMem hf
    have hid_e : id ∉ g.edges.map Prod.fst := by
      rw [show g.edges.map Prod.fst = edgeKeys g from rfl, hek]; exact hid_n
    refine ⟨?_, ?_, ?_, ?_⟩
    · show ((dictSet g.nodes id (a.getD [])).map Prod.fst).Nodup
      rw [keys_dictSet_not_mem _ _ _ hid_n]
      exact List.Nodup.append hnk (List.nodup_singleton id)
        (by rw [List.disjoint_singleton]; exact hid_n)
    · show (dictSet g.edges id []).map Prod.fst = (dictSet g.nodes id (a.getD [])).map Prod.fst
      rw [keys_dictSet_not_mem _ _ _ hid_e, keys_dictSet_not_mem _ _ _ hid_n]
      rw [show g.edges.map Prod.fst = edgeKeys g from rfl, hek]; rfl
    · intro p hp
      rcases mem_dictSet_elim hp with he | hmem
      · rw [he]; simp
      · exact hadj p hmem
    · intro p hp q hq
      rcases mem_dictSet_elim hp with he | hmem
      · rw [he] at hq; simp at hq
      · have hq1 := htgt p hmem q hq
        show q.1 ∈ (dictSet g.nodes id (a.getD [])).map Prod.fst
        rw [keys_dictSet_not_mem _ _ _ hid_n]
        exact List.mem_append_left _ hq1

theorem nodeKeys_add_node_fresh (g : Graph) (id : NodeId) (a : Option Attrs)
    (h : dictMem g.nodes id = false) :
    nodeKeys (add_node g id a).1 = nodeKeys g ++ [id] := by
  rw [add_node_fresh g id a h]
  show (dictSet g.nodes id (a.getD [])).map Prod.fst = _
  rw [keys_dictSet_not_mem _ _ _ (not_mem_nodeKeys_of_not_dictMem h)]; rfl

theorem edgeMem_add_node (g : Graph) (id : NodeId) (a : Option Attrs) (hWF : WF g)
    (u v : NodeId) : edgeMem (add_node g id a).1 u v = edgeMem g u v := by
  by_cases h : dictMem g.nodes id = true
  · rw [add_node_present g id a h]
  · have hf : dictMem g.nodes id = false := by simp [Bool.not_eq_true] at h; exact h
    rw [add_node_fresh g id a hf]
    rw [edgeMem_eq_dictMem_getD, edgeMem_eq_dictMem_getD]
    show dictMem ((dictGet? (dictSet g.edges id []) u).getD []) v = _
    by_cases hu : u = id
    · subst hu
      rw [dictGet?_dictSet_self]
      have hid_e : u ∉ g.edges.map Prod.fst := by
        obtain ⟨-, hek, -, -⟩ := hWF
        rw [show g.edges.map Prod.fst = edgeKeys g from rfl, hek]
        exact not_mem_nodeKeys_of_not_dictMem hf
      rw [(dictGet?_eq_none_iff g.edges u).mpr hid_e]
      rfl
    · rw [dictGet?_dictSet_ne _ _ _ _ hu]

theorem edgeMem_edges_dictSet (g g' : Graph) (u v : NodeId) (attrs : Attrs)
    (adjU : List (NodeId × Attrs)) (hadj : dictGet? g.edges u = some adjU)
    (hE : g'.edges = dictSet g.edges u (dictSet adjU v attrs)) (a b : NodeId) :
    edgeMem g' a b = true ↔ (edgeMem g a b = true ∨ (a = u ∧ b = v)) := by
  rw [edgeMem_eq_dictMem_getD, edgeMem_eq_dictMem_getD, hE]
  by_cases ha : a = u
  · subst ha
    rw [dictGet?_dictSet_self, hadj]
    simp only [Option.getD_some]
    by_cases hb : b = v
    · subst hb; simp [dictMem_dictSet_self]
    · rw [dictMem_dictSet_ne _ _ _ _ hb]
      simp [hb]
  · rw [dictGet?_dictSet_ne _ _ _ _ ha]
    simp [ha]

theorem hasOutgoing_iff (g : Graph) (n : NodeId) :
    hasOutgoing g n = true ↔ ∃ b, edgeMem g n b = true := by
  unfold hasOutgoing edgeMem
  cases hgn : dictGet? g.edges n with
  | none => simp
  | some d =>
    cases d with
    | nil => simp [dictMem]
    | cons q rest =>
      simp only [List.isEmpty_cons, Bool.not_false, true_iff]
      exact ⟨q.1, by simp [dictMem]⟩

theorem directed_add_node (g : Graph) (id : NodeId) (a : Option Attrs) :
    (add_node g id a).1.directed = g.directed := by
  by_cases h : dictMem g.nodes id = true
  · rw [add_node_present g id a h]
  · have hf : dictMem g.nodes id = false := by simp [Bool.not_eq_true] at h; exact h
    rw [add_node_fresh g id a hf]

theorem mem_nodeKeys_add_node_self (g : Graph) (id : NodeId) (a : Option Attrs) :
    id ∈ nodeKeys (add_node g id a).1 := by
  by_cases h : dictMem g.nodes id = true
  · rw [add_node_present g id a h]
    exact (dictMem_iff_mem_keys g.nodes id).mp h
  · have hf : dictMem g.nodes id = false := by simp [Bool.not_eq_true] at h; exact h
    rw [nodeKeys_add_node_fresh g id a hf]
    simp

theorem mem_nodeKeys_add_node_mono (g : Graph) (id n : NodeId) (a : Option Attrs)
    (h : n ∈ nodeKeys g) : n ∈ nodeKeys (add_node g id a).1 := by
  by_cases hm : dictMem g.nodes id = true
  · rw [add_node_present g id a hm]; exact h
  · have hf : dictMem g.nodes id = false := by simp [Bool.not_eq_true] at hm; exact hm
    rw [nodeKeys_add_node_fresh g id a hf]
    exact List.mem_append_left _ h

theorem RL_add_node (g : Graph) (id : NodeId) (a : Option Attrs)
    (hdir : g.directed = true) (hWF : WF g) (hRL : RootsLeavesExact g) :
    RootsLeavesExact (add_node g id a).1 := by
  by_cases h : dictMem g.nodes id = true
  · rw [add_node_present g id a h]; exact hRL
  · have hf : dictMem g.nodes id = false := by simp [Bool.not_eq_true] at h; exact h
    have hWF' : WF (add_node g id a).1 := WF_add_node g id a hWF
    have hkeys := nodeKeys_add_node_fresh g id a hf
    have hedge : ∀ u v, edgeMem (add_node g id a).1 u v = edgeMem g u v :=
      edgeMem_add_node g id a hWF
    have hid_n : id ∉ nodeKeys g := not_mem_nodeKeys_of_not_dictMem hf
    obtain ⟨hri, hrn, hli, hln⟩ := hRL
    have hroots : (add_node g id a).1.roots = g.roots ++ [id] := by
      rw [add_node_fresh g id a hf]; simp [hdir]
    have hleaves : (add_node g id a).1.leaves = g.leaves ++ [id] := by
      rw [add_node_fresh g id a hf]; simp [hdir]
    have hinc : ∀ n, hasIncoming (add_node g id a).1 n = hasIncoming g n := by
      intro n
      apply bool_eq_of_iff
      rw [hasIncoming_iff _ _ hWF', hasIncoming_iff _ _ hWF]
      constructor
      · rintro ⟨u, hu⟩; exact ⟨u, by rw [← hedge u n]; exact hu⟩
      · rintro ⟨u, hu⟩; exact ⟨u, by rw [hedge u n]; exact hu⟩
    have hout : ∀ n, hasOutgoing (add_node g id a).1 n = hasOutgoing g n := by
      intro n
      apply bool_eq_of_iff
      rw [hasOutgoing_iff, hasOutgoing_iff]
      constructor
      · rintro ⟨b, hb⟩; exact ⟨b, by rw [← hedge n b]; exact hb⟩
      · rintro ⟨b, hb⟩; exact ⟨b, by rw [hedge n b]; exact hb⟩
    have hinc_id : hasIncoming g id = false := by
      cases hcase : hasIncoming g id
      · rfl
      · exact absurd (edgeMem_tgt_mem hWF ((hasIncoming_iff g id hWF).mp hcase).choose_spec)
          hid_n
    have hout_id : hasOutgoing g id = false := by
      cases hcase : hasOutgoing g id
      · rfl
      · exact absurd (edgeMem_src_mem hWF ((hasOutgoing_iff g id).mp hcase).choose_spec)
          hid_n
    refine ⟨?_, ?_, ?_, ?_⟩
    · intro n
      rw [hroots, hkeys, hinc n]
      simp only [List.mem_append, List.mem_singleton]
      constructor
      · rintro (hn | rfl)
        · obtain ⟨h1, h2⟩ := (hri n).mp hn
          exact ⟨Or.inl h1, h2⟩
        · exact ⟨Or.inr rfl, hinc_id⟩
      · rintro ⟨hn | rfl, h2⟩
        · exact Or.inl ((hri n).mpr ⟨hn, h2⟩)
        · exact Or.inr rfl
    · rw [hroots]
      refine List.Nodup.append hrn (List.nodup_singleton id) ?_
      rw [List.disjoint_singleton]
      intro hmem
      exact hid_n ((hri id).mp hmem).1
    · intro n
      rw [hleaves, hkeys, hout n]
      simp only [List.mem_append, List.mem_singleton]
      constructor
      · rintro (hn | rfl)
        · obtain ⟨h1, h2⟩ := (hli n).mp hn
          exact ⟨Or.inl h1, h2⟩
        · exact ⟨Or.inr rfl, hout_id⟩
      · rintro ⟨hn | rfl, h2⟩
        · exact Or.inl ((hli n).mpr ⟨hn, h2⟩)
        · exact Or.inr rfl
    · rw [hleaves]
      refine List.Nodup.append hln (List.nodup_singleton id) ?_
      rw [List.disjoint_singleton]
      intro hmem
      exact hid_n ((hli id).mp hmem).1

theorem ensure_eq (g : Graph) (id : NodeId) (a : Option Attrs) :
    (if dictMem g.nodes id then g else (add_node g id a).1) = (add_node g id a).1 := by
  by_cases h : dictMem g.nodes id = true
  · rw [if_pos h, add_node_present g id a h]
  · rw [if_neg h]

theorem add_edge_eq (g : Graph) (u v : NodeId) (a ua va : Option Attrs) :
    add_edge g u v a ua va =
      (let g2 := (add_node ((add_node g u ua).1) v va).1
       let adj1 := (dictGet? g2.edges u).getD []
       let g3 :=
         if dictMem adj1 v then g2
         else
           let attrs := a.getD []
           let gE : Graph := { g2 with edges := dictSet g2.edges u (dictSet adj1 v attrs) }
           if !gE.directed then
             { gE with
               edges := dictSet gE.edges v
                 (dictSet ((dictGet? gE.edges v).getD []) u attrs) }
           else
             { gE with roots := gE.roots.erase v, leaves := gE.leaves.erase u }
       (g3, (dictGet? ((dictGet? g3.edges u).getD []) v).getD [])) := by
  unfold add_edge
  simp only [ensure_eq]

theorem nodup_mem_erase_iff {l : List Nat} {a b : Nat} (hnd : l.Nodup) :
    a ∈ l.erase b ↔ a ≠ b ∧ a ∈ l := by
  by_cases hab : a = b
  · subst hab
    simp [hnd.not_mem_erase]
  · rw [List.mem_erase_of_ne hab]
    simp [hab]

theorem add_edge_preserves_directed (g : Graph) (u v : NodeId) (a ua va : Option Attrs)
    (hdir : g.directed = true) (hWF : WF g) (hRL : RootsLeavesExact g) :
    (add_edge g u v a ua va).1.directed = true ∧ WF (add_edge g u v a ua va).1 ∧
      RootsLeavesExact (add_edge g u v a ua va).1 := by
  have hWF1 : WF (add_node g u ua).1 := WF_add_node g u ua hWF
  have hdir1 : (add_node g u ua).1.directed = true := by rw [directed_add_node]; exact hdir
  have hRL1 : RootsLeavesExact (add_node g u ua).1 := RL_add_node g u ua hdir hWF hRL
  rw [add_edge_eq]
  dsimp only
  set g2 := (add_node ((add_node g u ua).1) v va).1 with hg2def
  have hWF2 : WF g2 := WF_add_node _ v va hWF1
  have hdir2 : g2.directed = true := by rw [hg2def, directed_add_node]; exact hdir1
  have hRL2 : RootsLeavesExact g2 := RL_add_node _ v va hdir1 hWF1 hRL1
  have hu2 : u ∈ nodeKeys g2 :=
    mem_nodeKeys_add_node_mono _ v u va (mem_nodeKeys_add_node_self g u ua)
  have hv2 : v ∈ nodeKeys g2 := mem_nodeKeys_add_node_self _ v va
  obtain ⟨adjU, hadjU⟩ : ∃ d, dictGet? g2.edges u = some d := by
    apply dictGet?_isSome_of_mem
    rw [show g2.edges.map Prod.fst = edgeKeys g2 from rfl, hWF2.2.1]
    exact hu2
  rw [hadjU, Option.getD_some]
  by_cases hold : dictMem adjU v = true
  · rw [if_pos hold]
    exact ⟨hdir2, hWF2, hRL2⟩
  · rw [if_neg hold]
    simp only [hdir2, Bool.not_true, Bool.false_eq_true, if_false]
    set attrs := a.getD [] with hattrs
    set g3 : Graph :=
      { g2 with
        edges := dictSet g2.edges u (dictSet adjU v attrs)
        roots := g2.roots.erase v
        leaves := g2.leaves.erase u } with hg3def
    obtain ⟨hnk2, hek2, hadj2, htgt2⟩ := hWF2
    have hu2e : u ∈ g2.edges.map Prod.fst := by
      rw [show g2.edges.map Prod.fst = edgeKeys g2 from rfl, hek2]; exact hu2
    have hWF3 : WF g3 := by
      refine ⟨hnk2, ?_, ?_, ?_⟩
      · show (dictSet g2.edges u (dictSet adjU v attrs)).map Prod.fst = nodeKeys g2
        rw [keys_dictSet_mem _ _ _ hu2e]
        exact hek2
      · intro p hp
        rcases mem_dictSet_elim hp with he | hmem
        · rw [he]
          exact nodup_keys_dictSet _ _ _ (hadj2 (u, adjU) (dictGet?_mem_entries hadjU))
        · exact hadj2 p hmem
      · intro p hp q hq
        rcases mem_dictSet_elim hp with he | hmem
        · rw [he] at hq
          rcases mem_dictSet_elim hq with hqe | hqmem
          · rw [hqe]
            exact hv2
          · exact htgt2 (u, adjU) (dictGet?_mem_entries hadjU) q hqmem
        · exact htgt2 p hmem q hq
    have hedge3 : ∀ x y, edgeMem g3 x y = true ↔ (edgeMem g2 x y = true ∨ (x = u ∧ y = v)) :=
      fun x y => edgeMem_edges_dictSet g2 g3 u v attrs adjU hadjU rfl x y
    obtain ⟨hri2, hrn2, hli2, hln2⟩ := hRL2
    have h3 : ∀ n, hasIncoming g3 n = true ↔ (hasIncoming g2 n = true ∨ n = v) := by
      intro n
      rw [hasIncoming_iff _ _ hWF3, hasIncoming_iff _ _ ⟨hnk2, hek2, hadj2, htgt2⟩]
      constructor
      · rintro ⟨w, hw⟩
        rcases (hedge3 w n).mp hw with h | ⟨-, rfl⟩
        · exact Or.inl ⟨w, h⟩
        · exact Or.inr rfl
      · rintro (⟨w, hw⟩ | rfl)
        · exact ⟨w, (hedge3 w n).mpr (Or.inl hw)⟩
        · exact ⟨u, (hedge3 u n).mpr (Or.inr ⟨rfl, rfl⟩)⟩
    have h3f : ∀ n, (hasIncoming g3 n = false ↔ (hasIncoming g2 n = false ∧ n ≠ v)) := by
      intro n
      constructor
      · intro hf
        have hno : ¬ (hasIncoming g2 n = true ∨ n = v) := by
          rw [← h3 n]; simp [hf]
        push_neg at hno
        exact ⟨by simpa using hno.1, hno.2⟩
      · rintro ⟨h1, h2⟩
        cases hc : hasIncoming g3 n
        · rfl
        · rcases (h3 n).mp hc with hx | hx
          · rw [h1] at hx; exact Bool.noConfusion hx
          · exact absurd hx h2
    have h4 : ∀ n, hasOutgoing g3 n = true ↔ (hasOutgoing g2 n = true ∨ n = u) := by
      intro n
      rw [hasOutgoing_iff, hasOutgoing_iff]
      constructor
      · rintro ⟨b, hb⟩
        rcases (hedge3 n b).mp hb with h | ⟨rfl, -⟩
        · exact Or.inl ⟨b, h⟩
        · exact Or.inr rfl
      · rintro (⟨b, hb⟩ | rfl)
        · exact ⟨b, (hedge3 n b).mpr (Or.inl hb)⟩
        · exact ⟨v, (hedge3 n v).mpr (Or.inr ⟨rfl, rfl⟩)⟩
    have h4f : ∀ n, (hasOutgoing g3 n = false ↔ (hasOutgoing g2 n = false ∧ n ≠ u)) := by
      intro n
      constructor
      · intro hf
        have hno : ¬ (hasOutgoing g2 n = true ∨ n = u) := by
          rw [← h4 n]; simp [hf]
        push_neg at hno
        exact ⟨by simpa using hno.1, hno.2⟩
      · rintro ⟨h1, h2⟩
        cases hc : hasOutgoing g3 n
        · rfl
        · rcases (h4 n).mp hc with hx | hx
          · rw [h1] at hx; exact Bool.noConfusion hx
          · exact absurd hx h2
    refine ⟨trivial, hWF3, ?_, ?_, ?_, ?_⟩
    · intro n
      show n ∈ g2.roots.erase v ↔ (n ∈ nodeKeys g2 ∧ hasIncoming g3 n = false)
      constructor
      · intro hn
        obtain ⟨hne, hmem⟩ := (nodup_mem_erase_iff hrn2).mp hn
        obtain ⟨hk, hinc⟩ := (hri2 n).mp hmem
        exact ⟨hk, (h3f n).mpr ⟨hinc, hne⟩⟩
      · rintro ⟨hk, hf⟩
        obtain ⟨h1, h2⟩ := (h3f n).mp hf
        exact (nodup_mem_erase_iff hrn2).mpr ⟨h2, (hri2 n).mpr ⟨hk, h1⟩⟩
    · exact hrn2.erase v
    · intro n
      show n ∈ g2.leaves.erase u ↔ (n ∈ nodeKeys g2 ∧ hasOutgoing g3 n = false)
      constructor
      · intro hn
        obtain ⟨hne, hmem⟩ := (nodup_mem_erase_iff hln2).mp hn
        obtain ⟨hk, hout⟩ := (hli2 n).mp hmem
        exact ⟨hk, (h4f n).mpr ⟨hout, hne⟩⟩
      · rintro ⟨hk, hf⟩
        obtain ⟨h1, h2⟩ := (h4f n).mp hf
        exact (nodup_mem_erase_iff hln2).mpr ⟨h2, (hli2 n).mpr ⟨hk, h1⟩⟩
    · exact hln2.erase u

theorem buildGraph_inv_directed (ops : List Op) :
    (buildGraph true ops).directed = true ∧ WF (buildGraph true ops) ∧
      RootsLeavesExact (buildGraph true ops) := by
  suffices h : ∀ g : Graph, g.directed = true → WF g → RootsLeavesExact g →
      (ops.foldl applyOp g).directed = true ∧ WF (ops.foldl applyOp g) ∧
        RootsLeavesExact (ops.foldl applyOp g) by
    refine h (emptyGraph true) rfl ?_ ?_
    · exact ⟨List.nodup_nil, rfl, by simp [emptyGraph], by simp [emptyGraph]⟩
    · refine ⟨?_, List.nodup_nil, ?_, List.nodup_nil⟩
      · intro n; simp [emptyGraph, nodeKeys]
      · intro n; simp [emptyGraph, nodeKeys]
  induction ops with
  | nil => exact fun g h1 h2 h3 => ⟨h1, h2, h3⟩
  | cons op rest ih =>
    intro g h1 h2 h3
    simp only [List.foldl_cons]
    cases op with
    | node id attrs =>
      apply ih
      · rw [show applyOp g (.node id attrs) = (add_node g id attrs).1 from rfl,
          directed_add_node]
        exact h1
      · exact WF_add_node g id attrs h2
      · exact RL_add_node g id attrs h1 h2 h3
    | edge uu vv attrs ua va =>
      obtain ⟨hd, hw, hr⟩ := add_edge_preserves_directed g uu vv attrs ua va h1 h2 h3
      exact ih _ hd hw hr

-- ### C8: exact root and leaf bookkeeping

/-- C8: for every directed graph built by a finite sequence of add_node and add_edge
calls, the root list holds exactly the nodes with no incoming edge and the leaf list
exactly the nodes with no outgoing edge, each node appearing at most once. -/
theorem C8_roots_leaves_exact (ops : List Op) :
    RootsLeavesExact (buildGraph true ops) :=
  (buildGraph_inv_directed ops).2.2

-- ### C3 amended: the stack traversals stop on rank-ordered (acyclic) graphs

theorem isDone_iff {α : Type} (r : Res α) : Res.isDone r = true ↔ r ≠ Res.fuel := by
  cases r <;> simp [Res.isDone]

theorem le_foldr_max (l : List Nat) (x : Nat) (hx : x ∈ l) : x ≤ l.foldr max 0 := by
  induction l with
  | nil => simp at hx
  | cons a rest ih =>
    rcases List.mem_cons.mp hx with rfl | hm
    · exact Nat.le_max_left _ _
    · exact le_trans (ih hm) (Nat.le_max_right _ _)

theorem sum_pow_lt {B : Nat} (hB : 1 ≤ B) (rho : NodeId → Nat) (c : NodeId)
    (ns : List NodeId) (hlen : ns.length < B) (hr : ∀ w ∈ ns, rho w < rho c) :
    (ns.map (fun w => B ^ rho w)).sum < B ^ rho c := by
  cases ns with
  | nil =>
    simp only [List.map_nil, List.sum_nil]
    exact Nat.one_le_pow _ _ (by omega)
  | cons w0 ws =>
    have hc1 : 1 ≤ rho c := by
      have := hr w0 (List.mem_cons_self w0 ws)
      omega
    have hbound : ∀ x ∈ (w0 :: ws).map (fun w => B ^ rho w), x ≤ B ^ (rho c - 1) := by
      intro x hx
      obtain ⟨w, hw, rfl⟩ := List.mem_map.mp hx
      exact Nat.pow_le_pow_right hB (by have := hr w hw; omega)
    have hsum := List.sum_le_card_nsmul _ _ hbound
    rw [List.length_map, smul_eq_mul] at hsum
    have hXpos : 0 < B ^ (rho c - 1) := Nat.one_le_pow _ _ (by omega)
    have hlt : (w0 :: ws).length * B ^ (rho c - 1) < B * B ^ (rho c - 1) :=
      (Nat.mul_lt_mul_right hXpos).mpr hlen
    have heq : B * B ^ (rho c - 1) = B ^ rho c := by
      conv_rhs => rw [show rho c = (rho c - 1) + 1 by omega]
      rw [Nat.pow_succ]
      ring
    omega

theorem push_loop_measure {next : NodeId → Option (List NodeId)} {rho : NodeId → Nat}
    {B : Nat} (hB : 1 ≤ B)
    (hlen : ∀ u ns, next u = some ns → ns.length < B)
    (hrho : ∀ u ns, next u = some ns → ∀ w ∈ ns, rho w < rho u) :
    ∀ (fuelN : Nat) (stack acc : List NodeId),
      (stack.map (fun w => B ^ rho w)).sum ≤ fuelN →
      push_loop next stack acc fuelN ≠ Res.fuel := by
  intro fuelN
  induction fuelN with
  | zero =>
    intro stack acc hm
    cases stack with
    | nil => simp [push_loop]
    | cons c rest =>
      exfalso
      simp only [List.map_cons, List.sum_cons] at hm
      have h1 : 1 ≤ B ^ rho c := Nat.one_le_pow _ _ (by omega)
      omega
  | succ f ih =>
    intro stack acc hm
    cases stack with
    | nil => simp [push_loop]
    | cons c rest =>
      simp only [push_loop]
      cases hnx : next c with
      | none => simp
      | some ns =>
        simp only
        apply ih
        simp only [List.map_cons, List.sum_cons] at hm
        simp only [List.map_append, List.sum_append, List.map_reverse, List.sum_reverse]
        have hns : (ns.map (fun w => B ^ rho w)).sum < B ^ rho c :=
          sum_pow_lt hB rho c ns (hlen c ns hnx) (hrho c ns hnx)
        omega

theorem edgeMem_mem_edgePairs {g : Graph} {u v : NodeId} (h : edgeMem g u v = true) :
    (u, v) ∈ edgePairs g := by
  rw [edgeMem_eq_dictMem_getD] at h
  cases hgu : dictGet? g.edges u with
  | none => rw [hgu] at h; simp [dictMem] at h
  | some d =>
    rw [hgu] at h
    simp only [Option.getD_some] at h
    obtain ⟨attrs, hmem⟩ := dictMem_exists_entry h
    unfold edgePairs
    rw [List.mem_flatMap]
    exact ⟨(u, d), dictGet?_mem_entries hgu,
      by rw [List.mem_map]; exact ⟨(v, attrs), hmem, rfl⟩⟩

/-- C3 amended: get_descendants and get_ascendants stop (return or raise) for some fuel
on every finite directed graph that admits topological numberings — one strictly
decreasing along edges for the successor traversal and one strictly increasing for the
predecessor traversal, which is exactly acyclicity.  The claim's inclusion of cyclic
graphs is dropped, as the counterexample forces: without a visited set, the stack
traversal runs forever once a cycle is reachable. -/
theorem C3_terminates_on_ranked (g : Graph) (node_id : NodeId) (rankD rankA : NodeId → Nat)
    (hWF : WF g)
    (hD : ∀ x y, edgeMem g x y = true → rankD y < rankD x)
    (hA : ∀ x y, edgeMem g x y = true → rankA x < rankA y) :
    (∃ fuelN, Res.isDone (get_descendants g node_id fuelN) = true) ∧
    (∃ fuelN, Res.isDone (get_ascendants g node_id fuelN) = true) := by
  obtain ⟨hnk, hek, -, -⟩ := hWF
  have hndk : (g.edges.map Prod.fst).Nodup := by
    rw [show g.edges.map Prod.fst = edgeKeys g from rfl, hek]; exact hnk
  constructor
  · by_cases hg : (g.directed && dictMem g.edges node_id) = true
    · set B := (g.edges.map (fun p => p.2.length)).foldr max 0 + 1 with hBdef
      have hB : 1 ≤ B := by omega
      have hlen : ∀ u ns, desc_next g u = some ns → ns.length < B := by
        intro u ns hu
        unfold desc_next at hu
        cases hgu : dictGet? g.edges u with
        | none => rw [hgu] at hu; exact Option.noConfusion hu
        | some d =>
          rw [hgu] at hu
          simp only [Option.map_some'] at hu  -- hu : some (d.map fst) = some ns
          have hns : ns = d.map Prod.fst := by
            injection hu with h2
            exact h2.symm
          have hd : d.length ≤ (g.edges.map (fun p => p.2.length)).foldr max 0 :=
            le_foldr_max _ _ (List.mem_map_of_mem _ (dictGet?_mem_entries hgu))
          rw [hns, List.length_map]
          omega
      have hrho : ∀ u ns, desc_next g u = some ns → ∀ w ∈ ns, rankD w < rankD u := by
        intro u ns hu w hw
        unfold desc_next at hu
        cases hgu : dictGet? g.edges u with
        | none => rw [hgu] at hu; exact Option.noConfusion hu
        | some d =>
          rw [hgu] at hu
          simp only [Option.map_some'] at hu
          have hns : ns = d.map Prod.fst := by
            injection hu with h2
            exact h2.symm
          apply hD u w
          rw [edgeMem_eq_dictMem_getD, hgu, Option.getD_some]
          rw [dictMem_iff_mem_keys]
          rw [hns] at hw
          exact hw
      refine ⟨B ^ rankD node_id, ?_⟩
      rw [isDone_iff]
      unfold get_descendants
      rw [if_pos hg]
      exact push_loop_measure hB hlen hrho _ [node_id] [] (by simp)
    · exact ⟨0, by unfold get_descendants; rw [if_neg hg]; rfl⟩
  · by_cases hg : (g.directed && dictMem g.nodes node_id) = true
    · set B := g.edges.length + 1 with hBdef
      have hB : 1 ≤ B := by omega
      have hlen : ∀ u ns, asc_next g u = some ns → ns.length < B := by
        intro u ns hu
        unfold asc_next at hu
        have hns : ns = (g.edges.filter (fun p => dictMem p.2 u)).map Prod.fst := by
          injection hu with h2
          exact h2.symm
        rw [hns, List.length_map]
        have := List.length_filter_le (fun p => dictMem p.2 u) g.edges
        omega
      have hrho : ∀ u ns, asc_next g u = some ns → ∀ w ∈ ns, rankA w < rankA u := by
        intro u ns hu w hw
        unfold asc_next at hu
        have hns : ns = (g.edges.filter (fun p => dictMem p.2 u)).map Prod.fst := by
          injection hu with h2
          exact h2.symm
        rw [hns] at hw
        obtain ⟨p, hp, rfl⟩ := List.mem_map.mp hw
        have hpf := List.mem_filter.mp hp
        apply hA p.1 u
        rw [edgeMem_eq_dictMem_getD,
          dictGet?_of_mem_nodup hndk (show (p.1, p.2) ∈ g.edges by simpa using hpf.1),
          Option.getD_some]
        exact hpf.2
      refine ⟨B ^ rankA node_id, ?_⟩
      rw [isDone_iff]
      unfold get_ascendants
      rw [if_pos hg]
      exact push_loop_measure hB hlen hrho _ [node_id] [] (by simp)
    · exact ⟨0, by unfold get_ascendants; rw [if_neg hg]; rfl⟩

/-- Witness for the amended C3 on the DAG gC1 with explicit topological numberings. -/
theorem C3_terminates_on_ranked_witness :
    (WF gC1 ∧
     (∀ x y, edgeMem gC1 x y = true →
       (fun n => if n = 0 then 2 else if n = 1 then 1 else 0) y <
       (fun n => if n = 0 then 2 else if n = 1 then 1 else 0) x) ∧
     (∀ x y, edgeMem gC1 x y = true →
       (fun n => if n = 0 then 0 else if n = 1 then 1 else 2) x <
       (fun n => if n = 0 then 0 else if n = 1 then 1 else 2) y)) ∧
    ((∃ fuelN, Res.isDone (get_descendants gC1 0 fuelN) = true) ∧
     (∃ fuelN, Res.isDone (get_ascendants gC1 0 fuelN) = true)) := by
  have hpairs : edgePairs gC1 = [(0, 1), (0, 3), (1, 2)] := by decide
  have hD : ∀ x y, edgeMem gC1 x y = true →
      (fun n => if n = 0 then 2 else if n = 1 then 1 else 0) y <
      (fun n => if n = 0 then 2 else if n = 1 then 1 else 0) x := by
    intro x y h
    have hm := edgeMem_mem_edgePairs h
    rw [hpairs] at hm
    simp only [List.mem_cons, List.mem_singleton, List.not_mem_nil, or_false] at hm
    rcases hm with h1 | h1 | h1 <;>
      (rw [Prod.mk.injEq] at h1; obtain ⟨rfl, rfl⟩ := h1; decide)
  have hA : ∀ x y, edgeMem gC1 x y = true →
      (fun n => if n = 0 then 0 else if n = 1 then 1 else 2) x <
      (fun n => if n = 0 then 0 else if n = 1 then 1 else 2) y := by
    intro x y h
    have hm := edgeMem_mem_edgePairs h
    rw [hpairs] at hm
    simp only [List.mem_cons, List.mem_singleton, List.not_mem_nil, or_false] at hm
    rcases hm with h1 | h1 | h1 <;>
      (rw [Prod.mk.injEq] at h1; obtain ⟨rfl, rfl⟩ := h1; decide)
  exact ⟨⟨by decide, hD, hA⟩, C3_terminates_on_ranked gC1 0 _ _ (by decide) hD hA⟩

-- ### BFS invariants

theorem bfs_scan_spec (u : NodeId) (du : Nat) :
    ∀ (ns : List NodeId) (state : NodeId → NodeState) (dist : NodeId → Option Nat)
      (pred : NodeId → Option NodeId) (queue : List NodeId),
      state u ≠ .unexplored → dist u = some du →
      ∃ st' d' p' N,
        bfs_scan u ns state dist pred queue = (st', d', p', queue ++ N) ∧
        (∀ x, x ∉ N → (st' x = state x ∧ d' x = dist x ∧ p' x = pred x)) ∧
        (∀ x ∈ N, state x = .unexplored ∧ st' x = .discovered ∧
          d' x = some (du + 1) ∧ p' x = some u) ∧
        N.Nodup ∧ (∀ x ∈ N, x ∈ ns) ∧ (∀ x ∈ ns, st' x ≠ .unexplored) := by
  intro ns
  induction ns with
  | nil =>
    intro state dist pred queue hsu hdu
    exact ⟨state, dist, pred, [], by simp [bfs_scan], by simp, by simp, List.nodup_nil,
      by simp, by simp⟩
  | cons v rest ih =>
    intro state dist pred queue hsu hdu
    by_cases hv : state v = .unexplored
    · have hvu : v ≠ u := fun he => hsu (he ▸ hv)
      have huv : u ≠ v := fun he => hvu he.symm
      have hsu1 : (upd state v .discovered) u ≠ .unexplored := by
        rw [upd_ne _ _ _ _ huv]; exact hsu
      have hdu1 : (upd dist v ((dist u).map (· + 1))) u = some du := by
        rw [upd_ne _ _ _ _ huv]; exact hdu
      obtain ⟨st', d', p', N', hres, hold, hnew, hnd, hsub, hns⟩ :=
        ih (upd state v .discovered) (upd dist v ((dist u).map (· + 1)))
          (upd pred v (some u)) (queue ++ [v]) hsu1 hdu1
      have hvN' : v ∉ N' := by
        intro hmem
        have := (hnew v hmem).1
        rw [upd_self] at this
        exact NodeState.noConfusion this
      refine ⟨st', d', p', v :: N', ?_, ?_, ?_, ?_, ?_, ?_⟩
      · simp only [bfs_scan, if_pos hv, hres, List.append_assoc]
        rfl
      · intro x hx
        simp only [List.mem_cons, not_or] at hx
        obtain ⟨hxv, hxN⟩ := hx
        obtain ⟨h1, h2, h3⟩ := hold x hxN
        rw [h1, h2, h3, upd_ne _ _ _ _ hxv, upd_ne _ _ _ _ hxv, upd_ne _ _ _ _ hxv]
        exact ⟨rfl, rfl, rfl⟩
      · intro x hx
        rcases List.mem_cons.mp hx with rfl | hxN
        · obtain ⟨h1, h2, h3⟩ := hold x hvN'
          refine ⟨hv, ?_, ?_, ?_⟩
          · rw [h1, upd_self]
          · rw [h2, upd_self, hdu]; rfl
          · rw [h3, upd_self]
        · obtain ⟨h1, h2, h3, h4⟩ := hnew x hxN
          have hxv : x ≠ v := by
            intro he
            rw [he, upd_self] at h1
            exact NodeState.noConfusion h1
          rw [upd_ne _ _ _ _ hxv] at h1
          exact ⟨h1, h2, h3, h4⟩
      · exact List.Nodup.cons hvN' hnd
      · intro x hx
        rcases List.mem_cons.mp hx with rfl | hxN
        · exact List.mem_cons_self _ _
        · exact List.mem_cons_of_mem _ (hsub x hxN)
      · intro x hx
        rcases List.mem_cons.mp hx with rfl | hxr
        · obtain ⟨h1, -, -⟩ := hold x hvN'
          rw [h1, upd_self]
          exact fun hc => NodeState.noConfusion hc
        · exact hns x hxr
    · obtain ⟨st', d', p', N', hres, hold, hnew, hnd, hsub, hns⟩ :=
        ih state dist pred queue hsu hdu
      refine ⟨st', d', p', N', ?_, hold, hnew, hnd,
        fun x hx => List.mem_cons_of_mem _ (hsub x hx), ?_⟩
      · simp only [bfs_scan, if_neg hv, hres]
      · intro x hx
        rcases List.mem_cons.mp hx with rfl | hxr
        · have hxN : x ∉ N' := fun hm => hv (hnew x hm).1
          rw [(hold x hxN).1]
          exact hv
        · exact hns x hxr

theorem filter_unex_drop :
    ∀ (keys : List NodeId), keys.Nodup →
    ∀ (state st' : NodeId → NodeState) (N : List NodeId), N.Nodup →
      (∀ x ∈ N, x ∈ keys) →
      (∀ x ∈ N, state x = .unexplored ∧ st' x ≠ .unexplored) →
      (∀ x ∈ keys, x ∉ N →
        (st' x == NodeState.unexplored) = (state x == NodeState.unexplored)) →
      (keys.filter (fun n => st' n == NodeState.unexplored)).length + N.length ≤
        (keys.filter (fun n => state n == NodeState.unexplored)).length := by
  intro keys
  induction keys with
  | nil =>
    intro hk state st' N hN hNk hflip hsame
    cases N with
    | nil => simp
    | cons a t => exact absurd (hNk a (List.mem_cons_self a t)) (by simp)
  | cons k ks ih =>
    intro hk state st' N hN hNk hflip hsame
    simp only [List.nodup_cons] at hk
    by_cases hkN : k ∈ N
    · have hstate_k : (state k == NodeState.unexplored) = true := by
        rw [beq_iff_eq]; exact (hflip k hkN).1
      have hst'_k : (st' k == NodeState.unexplored) = false := by
        rw [beq_eq_false_iff_ne]; exact (hflip k hkN).2
      have hIH := ih hk.2 state st' (N.erase k) (hN.erase k)
        (by
          intro x hx
          obtain ⟨hxk, hxN⟩ := (nodup_mem_erase_iff hN).mp hx
          rcases List.mem_cons.mp (hNk x hxN) with he | hm
          · exact absurd he hxk
          · exact hm)
        (fun x hx => hflip x ((nodup_mem_erase_iff hN).mp hx).2)
        (by
          intro x hx hxe
          refine hsame x (List.mem_cons_of_mem _ hx) ?_
          intro hxN
          exact hxe ((nodup_mem_erase_iff hN).mpr ⟨fun he => hk.1 (he ▸ hx), hxN⟩))
      have hlen : (N.erase k).length + 1 = N.length := by
        rw [List.length_erase_of_mem hkN]
        have hpos : 0 < N.length := List.length_pos.mpr (List.ne_nil_of_mem hkN)
        omega
      rw [@List.filter_cons_of_neg _ (fun n => st' n == NodeState.unexplored) k ks
          (by simp [hst'_k]),
        @List.filter_cons_of_pos _ (fun n => state n == NodeState.unexplored) k ks hstate_k,
        List.length_cons]
      omega
    · have hsk : (st' k == NodeState.unexplored) = (state k == NodeState.unexplored) :=
        hsame k (List.mem_cons_self _ _) hkN
      have hIH := ih hk.2 state st' N hN
        (by
          intro x hx
          rcases List.mem_cons.mp (hNk x hx) with he | hm
          · exact absurd (he ▸ hx) hkN
          · exact hm)
        hflip
        (fun x hx => hsame x (List.mem_cons_of_mem _ hx))
      by_cases hck : (state k == NodeState.unexplored) = true
      · rw [@List.filter_cons_of_pos _ (fun n => st' n == NodeState.unexplored) k ks
            (by show (st' k == NodeState.unexplored) = true; rw [hsk]; exact hck),
          @List.filter_cons_of_pos _ (fun n => state n == NodeState.unexplored) k ks hck,
          List.length_cons, List.length_cons]
        omega
      · have hckf : (state k == NodeState.unexplored) = false := by
          cases hb : (state k == NodeState.unexplored)
          · rfl
          · exact absurd hb hck
        rw [@List.filter_cons_of_neg _ (fun n => st' n == NodeState.unexplored) k ks
            (by simp [hsk, hckf]),
          @List.filter_cons_of_neg _ (fun n => state n == NodeState.unexplored) k ks
            (by simp [hckf])]
        omega

theorem bfs_loop_spec (g : Graph) (start : NodeId) (hWF : WF g) :
    ∀ (fuelN : Nat) (queue : List NodeId) (state : NodeId → NodeState)
      (dist : NodeId → Option Nat) (pred : NodeId → Option NodeId),
      BfsInv g start state dist pred queue →
      queue.length + 2 * unexploredCount g state ≤ fuelN →
      ∃ st d p, bfs_loop g queue state dist pred fuelN = Res.ok (st, d, p) ∧
        BfsInv g start st d p [] := by
  intro fuelN
  induction fuelN with
  | zero =>
    intro queue state dist pred hInv hm
    cases queue with
    | nil => exact ⟨state, dist, pred, rfl, hInv⟩
    | cons u rest => simp [List.length_cons] at hm
  | succ f ih =>
    intro queue state dist pred hInv hm
    cases queue with
    | nil => exact ⟨state, dist, pred, rfl, hInv⟩
    | cons u rest =>
      have humem : u ∈ u :: rest := List.mem_cons_self u rest
      have hudisc : state u = .discovered := hInv.queue_disc u humem
      have hukeys : u ∈ nodeKeys g := hInv.queue_keys u humem
      obtain ⟨adjU, hadjU⟩ : ∃ d, dictGet? g.edges u = some d := by
        apply dictGet?_isSome_of_mem
        rw [show g.edges.map Prod.fst = edgeKeys g from rfl, hWF.2.1]
        exact hukeys
      have hune : state u ≠ .unexplored := by
        rw [hudisc]; exact fun hc => NodeState.noConfusion hc
      obtain ⟨du, hdu⟩ : ∃ du, dist u = some du := by
        cases hd : dist u with
        | none => exact absurd ((hInv.unex_dist u).mpr hd) hune
        | some d0 => exact ⟨d0, rfl⟩
      obtain ⟨st', d', p', N, hres, hold, hnew, hnd, hsub, hns⟩ :=
        bfs_scan_spec u du (adjU.map Prod.fst) state dist pred rest hune hdu
      have hedge_ns : ∀ b, edgeMem g u b = true ↔ b ∈ adjU.map Prod.fst := by
        intro b
        rw [edgeMem_eq_dictMem_getD, hadjU, Option.getD_some, dictMem_iff_mem_keys]
      have hNkeys : ∀ x ∈ N, x ∈ nodeKeys g := by
        intro x hx
        obtain ⟨q, hq, rfl⟩ := List.mem_map.mp (hsub x hx)
        exact hWF.2.2.2 (u, adjU) (dictGet?_mem_entries hadjU) q hq
      have hbnd : ∀ x, state x ≠ .unexplored → (dist x).getD 0 ≤ du + 1 := by
        intro x hx
        cases hsx : state x with
        | unexplored => exact absurd hsx hx
        | discovered =>
          have hxq := hInv.disc_queue x hsx
          have hb := hInv.queue_band u rest rfl x hxq
          rw [hdu, Option.getD_some] at hb
          exact hb
        | finished =>
          have hb := hInv.fin_band u rest rfl x hsx
          rw [hdu, Option.getD_some] at hb
          omega
      have hu_not_N : u ∉ N := fun hm1 => hune (hnew u hm1).1
      have hst'u : st' u = .discovered := by rw [(hold u hu_not_N).1]; exact hudisc
      have hd'u : d' u = some du := by rw [(hold u hu_not_N).2.1]; exact hdu
      have hp'u : p' u = pred u := (hold u hu_not_N).2.2
      have hrest_nodup : rest.Nodup := (List.nodup_cons.mp hInv.queue_nodup).2
      have hu_rest : u ∉ rest := (List.nodup_cons.mp hInv.queue_nodup).1
      have hrest_disc : ∀ x ∈ rest, state x = .discovered :=
        fun x hx => hInv.queue_disc x (List.mem_cons_of_mem u hx)
      have hrest_N : ∀ x ∈ rest, x ∉ N := by
        intro x hx hm1
        have h1 := hrest_disc x hx
        have h2 := (hnew x hm1).1
        rw [h1] at h2
        exact NodeState.noConfusion h2
      have hN_state : ∀ x ∈ N, state x = .unexplored := fun x hx => (hnew x hx).1
      -- the table after finishing u
      have hst2_u : (upd st' u NodeState.finished) u = .finished := upd_self _ _ _
      have hst2_ne : ∀ x, x ≠ u → (upd st' u NodeState.finished) x = st' x :=
        fun x hx => upd_ne _ _ _ _ hx
      have hnonstart_N : ∀ x ∈ N, x ≠ start := by
        intro x hx he
        have := hN_state x hx
        rw [he] at this
        exact hInv.start_facts.2.1 this
      -- monotone shape of the new state table
      have hF : ∀ x, state x ≠ .unexplored → (upd st' u NodeState.finished) x ≠ .unexplored := by
        intro x hx
        by_cases hxu : x = u
        · rw [hxu, hst2_u]; exact fun hc => NodeState.noConfusion hc
        · rw [hst2_ne x hxu]
          by_cases hxN : x ∈ N
          · rw [(hnew x hxN).2.1]; exact fun hc => NodeState.noConfusion hc
          · rw [(hold x hxN).1]; exact hx
      have hG : ∀ x, x ∉ N → d' x = dist x := fun x hx => (hold x hx).2.1
      have hstate2_of : ∀ x, (upd st' u NodeState.finished) x = .unexplored →
          (state x = .unexplored ∧ x ≠ u ∧ x ∉ N) := by
        intro x hx
        by_cases hxu : x = u
        · rw [hxu, hst2_u] at hx; exact absurd hx (fun hc => NodeState.noConfusion hc)
        · rw [hst2_ne x hxu] at hx
          by_cases hxN : x ∈ N
          · rw [(hnew x hxN).2.1] at hx; exact absurd hx (fun hc => NodeState.noConfusion hc)
          · rw [(hold x hxN).1] at hx; exact ⟨hx, hxu, hxN⟩
      have hInv2 : BfsInv g start (upd st' u NodeState.finished) d' p' (rest ++ N) := by
        constructor
        -- unex_dist
        case unex_dist =>
          intro n
          by_cases hnu : n = u
          · subst hnu
            rw [hst2_u, hd'u]
            constructor
            · intro hc; exact absurd hc (fun hc => NodeState.noConfusion hc)
            · intro hc; exact Option.noConfusion hc
          · rw [hst2_ne n hnu]
            by_cases hnN : n ∈ N
            · rw [(hnew n hnN).2.1, (hnew n hnN).2.2.1]
              constructor
              · intro hc; exact absurd hc (fun hc => NodeState.noConfusion hc)
              · intro hc; exact Option.noConfusion hc
            · rw [(hold n hnN).1, (hold n hnN).2.1]
              exact hInv.unex_dist n
        case pred_state =>
          intro n hn
          by_cases hnN : n ∈ N
          · refine ⟨?_, hnonstart_N n hnN⟩
            by_cases hnu : n = u
            · rw [hnu, hst2_u]; exact fun hc => NodeState.noConfusion hc
            · rw [hst2_ne n hnu, (hnew n hnN).2.1]
              exact fun hc => NodeState.noConfusion hc
          · rw [(hold n hnN).2.2] at hn
            obtain ⟨h1, h2⟩ := hInv.pred_state n hn
            exact ⟨hF n h1, h2⟩
        case nonstart_pred =>
          intro n hn hns2
          by_cases hnN : n ∈ N
          · rw [(hnew n hnN).2.2.2]
            exact fun hc => Option.noConfusion hc
          · rw [(hold n hnN).2.2]
            by_cases hnu : n = u
            · exact hInv.nonstart_pred n (by rw [hnu]; exact hune) hns2
            · rw [hst2_ne n hnu] at hn
              rw [(hold n hnN).1] at hn
              exact hInv.nonstart_pred n hn hns2
        case queue_keys =>
          intro x hx
          rcases List.mem_append.mp hx with h1 | h2
          · exact hInv.queue_keys x (List.mem_cons_of_mem u h1)
          · exact hNkeys x h2
        case queue_disc =>
          intro x hx
          rcases List.mem_append.mp hx with h1 | h2
          · have hxu : x ≠ u := fun he => hu_rest (he ▸ h1)
            rw [hst2_ne x hxu, (hold x (hrest_N x h1)).1]
            exact hrest_disc x h1
          · have hxu : x ≠ u := fun he => hu_not_N (he ▸ h2)
            rw [hst2_ne x hxu]
            exact (hnew x h2).2.1
        case disc_queue =>
          intro n hn
          by_cases hnu : n = u
          · rw [hnu, hst2_u] at hn; exact absurd hn (fun hc => NodeState.noConfusion hc)
          · rw [hst2_ne n hnu] at hn
            by_cases hnN : n ∈ N
            · exact List.mem_append_right rest hnN
            · rw [(hold n hnN).1] at hn
              rcases List.mem_cons.mp (hInv.disc_queue n hn) with he | hm
              · exact absurd he hnu
              · exact List.mem_append_left N hm
        case queue_nodup =>
          refine List.Nodup.append hrest_nodup hnd ?_
          intro x hx1 hx2
          exact hrest_N x hx1 hx2
        case queue_sorted =>
          rw [List.pairwise_append]
          refine ⟨?_, ?_, ?_⟩
          · have hold_pair := (List.pairwise_cons.mp hInv.queue_sorted).2
            refine hold_pair.imp_of_mem ?_
            intro a b ha hb hab
            rw [hG a (hrest_N a ha), hG b (hrest_N b hb)]
            exact hab
          · refine List.pairwise_of_forall_mem_list ?_
            intro a ha b hb
            rw [(hnew a ha).2.2.1, (hnew b hb).2.2.1]
          · intro a ha b hb
            rw [hG a (hrest_N a ha), (hnew b hb).2.2.1, Option.getD_some]
            have hband := hInv.queue_band u rest rfl a (List.mem_cons_of_mem u ha)
            rw [hdu, Option.getD_some] at hband
            exact hband
        case queue_band =>
          intro h t hq x hx
          have hhd : du ≤ (d' h).getD 0 := by
            cases hr : rest with
            | cons r rs =>
              rw [hr] at hq
              have hh : h = r := by
                have := congrArg (fun l => l.head?) hq
                simpa using this.symm
              subst hh
              have hpc := (List.pairwise_cons.mp hInv.queue_sorted).1 h
                (by rw [hr]; exact List.mem_cons_self _ _)
              rw [hdu, Option.getD_some] at hpc
              rw [hG h (hrest_N h (by rw [hr]; exact List.mem_cons_self _ _))]
              exact hpc
            | nil =>
              rw [hr] at hq
              simp only [List.nil_append] at hq
              have hhN : h ∈ N := by rw [hq]; exact List.mem_cons_self _ _
              rw [(hnew h hhN).2.2.1, Option.getD_some]
              omega
          rcases List.mem_append.mp hx with h1 | h2
          · rw [hG x (hrest_N x h1)]
            have hband := hInv.queue_band u rest rfl x (List.mem_cons_of_mem u h1)
            rw [hdu, Option.getD_some] at hband
            omega
          · rw [(hnew x h2).2.2.1, Option.getD_some]
            omega
        case fin_band =>
          intro h t hq n hn
          have hhd : du ≤ (d' h).getD 0 := by
            cases hr : rest with
            | cons r rs =>
              rw [hr] at hq
              have hh : h = r := by
                have := congrArg (fun l => l.head?) hq
                simpa using this.symm
              subst hh
              have hpc := (List.pairwise_cons.mp hInv.queue_sorted).1 h
                (by rw [hr]; exact List.mem_cons_self _ _)
              rw [hdu, Option.getD_some] at hpc
              rw [hG h (hrest_N h (by rw [hr]; exact List.mem_cons_self _ _))]
              exact hpc
            | nil =>
              rw [hr] at hq
              simp only [List.nil_append] at hq
              have hhN : h ∈ N := by rw [hq]; exact List.mem_cons_self _ _
              rw [(hnew h hhN).2.2.1, Option.getD_some]
              omega
          by_cases hnu : n = u
          · subst hnu
            rw [hd'u, Option.getD_some]
            exact hhd
          · rw [hst2_ne n hnu] at hn
            have hnN : n ∉ N := by
              intro hm1
              have := (hnew n hm1).2.1
              rw [this] at hn
              exact NodeState.noConfusion hn
            rw [(hold n hnN).1] at hn
            have hfb := hInv.fin_band u rest rfl n hn
            rw [hdu, Option.getD_some] at hfb
            rw [hG n hnN]
            omega
        case fin_closed =>
          intro a ha b hb
          by_cases hau : a = u
          · subst hau
            have hbns : b ∈ adjU.map Prod.fst := (hedge_ns b).mp hb
            have hb_ne : st' b ≠ .unexplored := hns b hbns
            constructor
            · by_cases hbu : b = a
              · rw [hbu, hst2_u]; exact fun hc => NodeState.noConfusion hc
              · rw [hst2_ne b hbu]; exact hb_ne
            · rw [hd'u, Option.getD_some]
              by_cases hbN : b ∈ N
              · rw [(hnew b hbN).2.2.1, Option.getD_some]
              · rw [hG b hbN]
                have hbst : state b ≠ .unexplored := by
                  rw [← (hold b hbN).1]; exact hb_ne
                exact hbnd b hbst
          · rw [hst2_ne a hau] at ha
            have haN : a ∉ N := by
              intro hm1
              have := (hnew a hm1).2.1
              rw [this] at ha
              exact NodeState.noConfusion ha
            rw [(hold a haN).1] at ha
            obtain ⟨h1, h2⟩ := hInv.fin_closed a ha b hb
            have hbN : b ∉ N := by
              intro hm1
              exact h1 (hN_state b hm1)
            constructor
            · exact hF b h1
            · rw [hG b hbN, hG a haN]
              exact h2
        case reach =>
          intro n hn
          by_cases hnu : n = u
          · subst hnu
            exact hInv.reach n hune
          · rw [hst2_ne n hnu] at hn
            by_cases hnN : n ∈ N
            · have hreach_u : Reach g start u := hInv.reach u hune
              have hedge : edgeMem g u n = true := (hedge_ns n).mpr (hsub n hnN)
              exact Relation.ReflTransGen.tail hreach_u hedge
            · rw [(hold n hnN).1] at hn
              exact hInv.reach n hn
        case pred_edge =>
          intro n p hp
          by_cases hnN : n ∈ N
          · rw [(hnew n hnN).2.2.2] at hp
            have hpu : p = u := by injection hp with h1; exact h1.symm
            subst hpu
            refine ⟨(hedge_ns n).mpr (hsub n hnN), ?_, du, hd'u, (hnew n hnN).2.2.1⟩
            rw [hst2_u]; exact fun hc => NodeState.noConfusion hc
          · rw [(hold n hnN).2.2] at hp
            obtain ⟨h1, h2, dp, h3, h4⟩ := hInv.pred_edge n p hp
            have hpN : p ∉ N := by
              intro hm1
              exact h2 (hN_state p hm1)
            exact ⟨h1, hF p h2, dp, by rw [hG p hpN]; exact h3,
              by rw [hG n hnN]; exact h4⟩
        case start_facts =>
          have hsN : start ∉ N := by
            intro hm1
            exact hnonstart_N start hm1 rfl
          refine ⟨by rw [hG start hsN]; exact hInv.start_facts.1,
            hF start hInv.start_facts.2.1, ?_⟩
          by_cases hsu : start = u
          · rw [(hold start hsN).2.2]
            exact hInv.start_facts.2.2
          · rw [(hold start hsN).2.2]
            exact hInv.start_facts.2.2
        case dist_zero =>
          intro n hn
          by_cases hnN : n ∈ N
          · rw [(hnew n hnN).2.2.1] at hn
            injection hn with h1
            exact absurd h1 (by omega)
          · rw [hG n hnN] at hn
            exact hInv.dist_zero n hn
      -- the fuel bound for the recursive call
      have hcount : unexploredCount g (upd st' u NodeState.finished) + N.length ≤
          unexploredCount g state := by
        unfold unexploredCount
        refine filter_unex_drop (nodeKeys g) hWF.1 state (upd st' u NodeState.finished)
          N hnd hNkeys ?_ ?_
        · intro x hx
          refine ⟨hN_state x hx, ?_⟩
          have hxu : x ≠ u := fun he => hu_not_N (he ▸ hx)
          rw [hst2_ne x hxu, (hnew x hx).2.1]
          exact fun hc => NodeState.noConfusion hc
        · intro x hx hxN
          by_cases hxu : x = u
          · rw [hxu, hst2_u, hudisc]
            rfl
          · rw [hst2_ne x hxu, (hold x hxN).1]
      have hm2 : (rest ++ N).length + 2 * unexploredCount g (upd st' u NodeState.finished) ≤ f := by
        rw [List.length_append]
        simp only [List.length_cons] at hm
        omega
      obtain ⟨stF, dF, pF, hrun, hFin⟩ := ih (rest ++ N) (upd st' u NodeState.finished) d' p' hInv2 hm2
      refine ⟨stF, dF, pF, ?_, hFin⟩
      simp only [bfs_loop, hadjU, hres]
      exact hrun

theorem bfs_spec (g : Graph) (start : NodeId) (hWF : WF g) (hstart : start ∈ nodeKeys g) :
    ∃ st d p, bfs g start = Res.ok (st, d, p) ∧ BfsInv g start st d p [] := by
  have hInit : BfsInv g start (upd (fun _ => .unexplored) start .discovered)
      (upd (fun _ => none) start (some 0)) (fun _ => none) [start] := by
    constructor
    case unex_dist =>
      intro n
      by_cases hn : n = start
      · rw [hn, upd_self, upd_self]
        constructor
        · intro hc; exact absurd hc (fun hc => NodeState.noConfusion hc)
        · intro hc; exact Option.noConfusion hc
      · rw [upd_ne _ _ _ _ hn, upd_ne _ _ _ _ hn]
        simp
    case pred_state => intro n hn; exact absurd rfl hn
    case nonstart_pred =>
      intro n hn hns
      exfalso
      by_cases hn2 : n = start
      · exact hns hn2
      · rw [upd_ne _ _ _ _ hn2] at hn
        exact hn rfl
    case queue_keys =>
      intro x hx
      rw [List.mem_singleton] at hx
      rw [hx]; exact hstart
    case queue_disc =>
      intro x hx
      rw [List.mem_singleton] at hx
      rw [hx, upd_self]
    case disc_queue =>
      intro n hn
      by_cases hn2 : n = start
      · rw [hn2]; exact List.mem_singleton.mpr rfl
      · rw [upd_ne _ _ _ _ hn2] at hn
        exact absurd hn (fun hc => NodeState.noConfusion hc)
    case queue_nodup => exact List.nodup_singleton start
    case queue_sorted => exact List.pairwise_singleton _ _
    case queue_band =>
      intro h t hq x hx
      rw [List.mem_singleton] at hx
      have hh : h = start := by
        have := congrArg (fun l => l.head?) hq
        simpa using this.symm
      rw [hx, hh]
      omega
    case fin_band =>
      intro h t hq n hn
      by_cases hn2 : n = start
      · rw [hn2, upd_self] at hn; exact absurd hn (fun hc => NodeState.noConfusion hc)
      · rw [upd_ne _ _ _ _ hn2] at hn; exact absurd hn (fun hc => NodeState.noConfusion hc)
    case fin_closed =>
      intro a ha b hb
      exfalso
      by_cases ha2 : a = start
      · rw [ha2, upd_self] at ha; exact NodeState.noConfusion ha
      · rw [upd_ne _ _ _ _ ha2] at ha; exact NodeState.noConfusion ha
    case reach =>
      intro n hn
      by_cases hn2 : n = start
      · rw [hn2]; exact Relation.ReflTransGen.refl
      · rw [upd_ne _ _ _ _ hn2] at hn; exact absurd rfl hn
    case pred_edge => intro n p hp; exact absurd hp (fun hc => Option.noConfusion hc)
    case start_facts =>
      exact ⟨upd_self _ _ _, by rw [upd_self]; exact fun hc => NodeState.noConfusion hc, rfl⟩
    case dist_zero =>
      intro n hn
      by_cases hn2 : n = start
      · exact hn2
      · rw [upd_ne _ _ _ _ hn2] at hn; exact absurd hn (fun hc => Option.noConfusion hc)
  have hcle : unexploredCount g (upd (fun _ => .unexplored) start .discovered) ≤
      (nodeKeys g).length := List.length_filter_le _ _
  have hnlen : (nodeKeys g).length = g.nodes.length := List.length_map _ _
  have hfuel : [start].length +
      2 * unexploredCount g (upd (fun _ => .unexplored) start .discovered) ≤
      1 + 2 * g.nodes.length := by
    simp only [List.length_singleton]
    omega
  obtain ⟨st, d, p, hrun, hInvF⟩ := bfs_loop_spec g start hWF (1 + 2 * g.nodes.length)
    [start] _ _ _ hInit hfuel
  exact ⟨st, d, p, by unfold bfs; exact hrun, hInvF⟩

-- ### C5: BFS triangle property and unreachable nodes

/-- C5: for every well-formed graph and start node present in it, bfs succeeds; its
distance table satisfies the triangle property dist v ≤ dist u + 1 along every edge
whose source has a finite distance, and every node unreachable from the start keeps
state UNEXPLORED, infinite distance (None here) and no predecessor. -/
theorem C5_bfs_triangle_and_unreachable (g : Graph) (start : NodeId) (hWF : WF g)
    (hstart : start ∈ nodeKeys g) :
    ∃ state dist pred, bfs g start = Res.ok (state, dist, pred) ∧
      (∀ u v du, edgeMem g u v = true → dist u = some du →
        ∃ dv, dist v = some dv ∧ dv ≤ du + 1) ∧
      (∀ n, ¬ Reach g start n →
        state n = NodeState.unexplored ∧ dist n = none ∧ pred n = none) := by
  obtain ⟨st, d, p, hrun, hInv⟩ := bfs_spec g start hWF hstart
  refine ⟨st, d, p, hrun, ?_, ?_⟩
  · intro u v du he hd
    have hu_ne : st u ≠ .unexplored := by
      intro hc
      rw [(hInv.unex_dist u).mp hc] at hd
      exact Option.noConfusion hd
    have hu_fin : st u = .finished := by
      cases hc : st u with
      | unexplored => exact absurd hc hu_ne
      | discovered => exact absurd (hInv.disc_queue u hc) (List.not_mem_nil u)
      | finished => rfl
    obtain ⟨h1, h2⟩ := hInv.fin_closed u hu_fin v he
    obtain ⟨dv, hdv⟩ : ∃ dv, d v = some dv := by
      cases hc : d v with
      | none => exact absurd ((hInv.unex_dist v).mpr hc) h1
      | some dv => exact ⟨dv, rfl⟩
    refine ⟨dv, hdv, ?_⟩
    rw [hd, Option.getD_some, hdv, Option.getD_some] at h2
    exact h2
  · intro n hr
    have h1 : st n = .unexplored := by
      by_contra hc
      exact hr (hInv.reach n hc)
    refine ⟨h1, (hInv.unex_dist n).mp h1, ?_⟩
    cases hc : p n with
    | none => rfl
    | some q =>
      exfalso
      exact (hInv.pred_state n (by rw [hc]; exact fun h => Option.noConfusion h)).1 h1

/-- Witness for C5 on gC1 from its root. -/
theorem C5_bfs_triangle_and_unreachable_witness :
    (WF gC1 ∧ 0 ∈ nodeKeys gC1) ∧
    (∃ state dist pred, bfs gC1 0 = Res.ok (state, dist, pred) ∧
      (∀ u v du, edgeMem gC1 u v = true → dist u = some du →
        ∃ dv, dist v = some dv ∧ dv ≤ du + 1) ∧
      (∀ n, ¬ Reach gC1 0 n →
        state n = NodeState.unexplored ∧ dist n = none ∧ pred n = none)) :=
  ⟨⟨by decide, by decide⟩,
    C5_bfs_triangle_and_unreachable gC1 0 (by decide) (by decide)⟩

-- ### DFS invariant helpers

theorem back_of_dictSet {cl : List ((NodeId × NodeId) × EdgeClass)} {e e2 : NodeId × NodeId}
    {c k : EdgeClass} (h : dictGet? (dictSet cl e c) e2 = some k) :
    (e2 = e ∧ c = k) ∨ dictGet? cl e2 = some k := by
  by_cases he : e2 = e
  · subst he
    rw [dictGet?_dictSet_self] at h
    injection h with h1
    exact Or.inl ⟨rfl, h1⟩
  · rw [dictGet?_dictSet_ne _ _ _ _ he] at h
    exact Or.inr h

theorem unexCount_pos {g : Graph} {state : NodeId → NodeState} {vertex : NodeId}
    (hk : vertex ∈ nodeKeys g) (hs : state vertex = .unexplored) :
    1 ≤ unexploredCount g state := by
  unfold unexploredCount
  have hmem : vertex ∈ (nodeKeys g).filter (fun n => state n == NodeState.unexplored) :=
    List.mem_filter.mpr ⟨hk, by rw [beq_iff_eq]; exact hs⟩
  have := List.length_pos.mpr (List.ne_nil_of_mem hmem)
  omega

theorem disc_iff_of_mono {gx : Graph} {sA sB : NodeId → NodeState}
    (mono : ∀ n, sA n ≠ .unexplored → sB n = sA n)
    (chg : ∀ n, sB n ≠ sA n → sA n = .unexplored ∧ sB n = .finished ∧ n ∈ nodeKeys gx) :
    ∀ n, sB n = .discovered ↔ sA n = .discovered := by
  intro n
  constructor
  · intro hb
    by_cases hc : sB n = sA n
    · rw [← hc]; exact hb
    · obtain ⟨-, h2, -⟩ := chg n hc
      rw [h2] at hb
      exact absurd hb (fun hc2 => NodeState.noConfusion hc2)
  · intro ha
    rw [mono n (by rw [ha]; exact fun hc => NodeState.noConfusion hc)]
    exact ha

theorem Inv3_write (g : Graph) (s sW : DfsState) (vertex m : NodeId)
    (c : EdgeClass) (hst : sW.state = s.state)
    (hcl : sW.classification = dictSet s.classification (vertex, m) c)
    (hvert : s.state vertex = .discovered) (hinv : Inv3 g s) : Inv3 g sW := by
  intro a ha b hb
  rw [hst] at ha
  have hav : a ≠ vertex := by
    intro he; rw [he, hvert] at ha; exact NodeState.noConfusion ha
  rcases hinv a ha b hb with h1 | h2
  · left; rw [hst]; exact h1
  · right
    rw [hcl, dictGet?_dictSet_ne _ _ _ _ (by
      intro he; exact hav (congrArg Prod.fst he))]
    exact h2

theorem ClassOk_write (s sW : DfsState) (vertex m : NodeId) (c : EdgeClass)
    (hst : sW.state = s.state)
    (hcl : sW.classification = dictSet s.classification (vertex, m) c)
    (hvert : s.state vertex = .discovered) (hok : ClassOk s) : ClassOk sW := by
  constructor
  · intro a b k hk
    rw [hcl] at hk
    rcases back_of_dictSet hk with ⟨he, -⟩ | hold
    · have ha : a = vertex := congrArg Prod.fst he
      rw [hst, ha, hvert]; exact fun hc => NodeState.noConfusion hc
    · rw [hst]; exact hok.1 a b k hold
  · rw [hcl]; exact nodup_keys_dictSet _ _ _ hok.2

theorem HasBackFin_write (s sW : DfsState) (vertex m : NodeId) (c : EdgeClass)
    (hst : sW.state = s.state)
    (hcl : sW.classification = dictSet s.classification (vertex, m) c)
    (hvert : s.state vertex = .discovered) (h : HasBackFin s) : HasBackFin sW := by
  obtain ⟨a, b, hab, hfin⟩ := h
  have hav : a ≠ vertex := by
    intro he; rw [he, hvert] at hfin; exact NodeState.noConfusion hfin
  refine ⟨a, b, ?_, by rw [hst]; exact hfin⟩
  rw [hcl, dictGet?_dictSet_ne _ _ _ _ (by
    intro he; exact hav (congrArg Prod.fst he))]
  exact hab

theorem NoBack_write (s sW : DfsState) (vertex m : NodeId) (c : EdgeClass)
    (hcl : sW.classification = dictSet s.classification (vertex, m) c)
    (hc : c ≠ EdgeClass.back) (h : NoBack s) : NoBack sW := by
  intro a b hab
  rw [hcl] at hab
  rcases back_of_dictSet hab with ⟨-, he⟩ | hold
  · exact hc he
  · exact h a b hold

-- ### C6: the shortest-path contract

theorem path_loop_spec (g : Graph) (start : NodeId) (st : NodeId → NodeState)
    (d : NodeId → Option Nat) (p : NodeId → Option NodeId)
    (hInv : BfsInv g start st d p []) :
    ∀ (dn : Nat) (n : NodeId) (acc : List NodeId), d n = some dn →
      ∃ l, path_loop p (some n) acc (dn + 1) = Res.ok (acc ++ l) ∧
        l ≠ [] ∧ l.head? = some n ∧ l.getLast? = some start ∧
        List.Chain' (fun a b => edgeMem g b a = true) l := by
  intro dn
  induction dn using Nat.strong_induction_on with
  | _ dn ih =>
    intro n acc hdn
    have hnne : st n ≠ .unexplored := by
      intro hc
      rw [(hInv.unex_dist n).mp hc] at hdn
      exact Option.noConfusion hdn
    cases hp : p n with
    | none =>
      have hn_start : n = start := by
        by_contra hne
        exact (hInv.nonstart_pred n hnne hne) hp
      refine ⟨[n], ?_, by simp, by simp, ?_, ?_⟩
      · simp [path_loop, hp]
      · rw [hn_start]; simp
      · simp
    | some q =>
      obtain ⟨hedge, hqne, dq, hdq, hdn2⟩ := hInv.pred_edge n q hp
      rw [hdn] at hdn2
      injection hdn2 with he
      have hdq_lt : dq < dn := by omega
      obtain ⟨l', hres, hne', hhead', hlast', hchain'⟩ := ih dq hdq_lt q (acc ++ [n]) hdq
      refine ⟨n :: l', ?_, by simp, by simp, ?_, ?_⟩
      · have hstep : path_loop p (some n) acc (dn + 1) = path_loop p (p n) (acc ++ [n]) dn := by
          simp [path_loop]
        rw [hstep, hp, he, hres, List.append_assoc]
        rfl
      · cases l' with
        | nil => exact absurd rfl hne'
        | cons x tl =>
          rw [List.getLast?_cons_cons]
          exact hlast'
      · refine List.chain'_cons'.mpr ⟨?_, hchain'⟩
        intro y hy
        rw [hhead'] at hy
        rw [Option.mem_some_iff] at hy
        rw [← hy]
        exact hedge

theorem reach_nonunex (g : Graph) (start : NodeId) (st : NodeId → NodeState)
    (d : NodeId → Option Nat) (p : NodeId → Option NodeId)
    (hInv : BfsInv g start st d p []) :
    ∀ n, Reach g start n → st n ≠ .unexplored := by
  intro n hr
  induction hr with
  | refl => exact hInv.start_facts.2.1
  | tail hab hbc ih =>
    rename_i b c
    have hb_fin : st b = .finished := by
      cases hc : st b with
      | unexplored => exact absurd hc ih
      | discovered => exact absurd (hInv.disc_queue b hc) (List.not_mem_nil b)
      | finished => rfl
    exact (hInv.fin_closed b hb_fin c hbc).1

/-- C6: get_shortest_path raises (ValueError) exactly when an endpoint is absent from
the node table; when both are present it returns [s] for t = s, the empty list when t
is unreachable from s, and otherwise a nonempty edge path from s to t rebuilt from the
BFS predecessors — unreachability is never an error. -/
theorem C6_shortest_path_contract (g : Graph) (s t : NodeId) (hWF : WF g) :
    (¬ (s ∈ nodeKeys g ∧ t ∈ nodeKeys g) → get_shortest_path g s t = Res.valueError) ∧
    (s ∈ nodeKeys g → t ∈ nodeKeys g →
      (t = s → get_shortest_path g s t = Res.ok [s]) ∧
      (¬ Reach g s t → get_shortest_path g s t = Res.ok []) ∧
      (t ≠ s → Reach g s t →
        ∃ l, get_shortest_path g s t = Res.ok l ∧ l ≠ [] ∧
          l.head? = some s ∧ l.getLast? = some t ∧
          List.Chain' (fun a b => edgeMem g a b = true) l)) := by
  constructor
  · intro habs
    unfold get_shortest_path
    by_cases hs : s ∈ nodeKeys g
    · have ht : t ∉ nodeKeys g := fun ht => habs ⟨hs, ht⟩
      have hs2 : dictMem g.nodes s = true := (dictMem_iff_mem_keys _ _).mpr hs
      have ht2 : dictMem g.nodes t = false := by
        cases hc : dictMem g.nodes t
        · rfl
        · exact absurd ((dictMem_iff_mem_keys _ _).mp hc) ht
      rw [hs2, ht2]
      rfl
    · have hs2 : dictMem g.nodes s = false := by
        cases hc : dictMem g.nodes s
        · rfl
        · exact absurd ((dictMem_iff_mem_keys _ _).mp hc) hs
      rw [hs2]
      rfl
  · intro hs ht
    obtain ⟨st, d, p, hrun, hInv⟩ := bfs_spec g s hWF hs
    have hs2 : dictMem g.nodes s = true := (dictMem_iff_mem_keys _ _).mpr hs
    have ht2 : dictMem g.nodes t = true := (dictMem_iff_mem_keys _ _).mpr ht
    refine ⟨?_, ?_, ?_⟩
    · intro hts
      rw [hts]
      have hloop : path_loop p (some s) [] (0 + 1) = Res.ok [s] := by
        have hps : p s = none := hInv.start_facts.2.2
        simp [path_loop, hps]
      unfold get_shortest_path
      rw [hs2]
      simp only [Bool.not_true, Bool.false_eq_true, if_false, hrun, hInv.start_facts.1,
        hloop]
      rfl
    · intro hur
      have hdt : d t = none := by
        cases hc : d t with
        | none => rfl
        | some x =>
          exfalso
          have hne : st t ≠ .unexplored := by
            intro hu
            rw [(hInv.unex_dist t).mp hu] at hc
            exact Option.noConfusion hc
          exact hur (hInv.reach t hne)
      unfold get_shortest_path
      rw [hs2, ht2]
      simp only [Bool.not_true, Bool.false_eq_true, if_false, hrun, hdt]
    · intro hts hr
      have hne : st t ≠ .unexplored := reach_nonunex g s st d p hInv t hr
      obtain ⟨dt, hdt⟩ : ∃ dt, d t = some dt := by
        cases hc : d t with
        | none => exact absurd ((hInv.unex_dist t).mpr hc) hne
        | some x => exact ⟨x, rfl⟩
      obtain ⟨l, hloop, hlne, hlhead, hllast, hlchain⟩ :=
        path_loop_spec g s st d p hInv dt t [] hdt
      refine ⟨l.reverse, ?_, ?_, ?_, ?_, ?_⟩
      · unfold get_shortest_path
        rw [hs2, ht2]
        simp only [Bool.not_true, Bool.false_eq_true, if_false, hrun, hdt, hloop,
          List.nil_append]
      · simp [hlne]
      · rw [List.head?_reverse]
        exact hllast
      · rw [List.getLast?_reverse]
        exact hlhead
      · rw [List.chain'_reverse]
        exact hlchain

theorem scan_of_visit (g : Graph) (fuelN : Nat)
    (hV : VisitSpec g fuelN) : ScanSpec g fuelN := by
  intro vertex time ns s
  induction ns generalizing s with
  | nil =>
    intro hvert hkeys hnodup hedges hclass hcount
    exact ⟨s, rfl, fun n _ => rfl, fun n h => absurd rfl h, fun a b _ _ => rfl,
      fun b _ => rfl, hclass, fun h => h, le_refl _,
      fun v hv2 => absurd hv2 (List.not_mem_nil v), fun h => h,
      fun _ _ x hx hx2 _ => absurd hx hx2, fun _ _ h => absurd rfl h, fun _ _ h => h⟩
  | cons m rest ihns =>
    intro hvert hkeys hnodup hedges hclass hcount
    have hvge : s.state vertex ≠ .unexplored := by
      rw [hvert]; exact fun hc => NodeState.noConfusion hc
    have hmkeys : m ∈ nodeKeys g := hkeys m (List.mem_cons_self m rest)
    have hmedge : edgeMem g vertex m = true := hedges m (List.mem_cons_self m rest)
    have hrest_keys : ∀ n ∈ rest, n ∈ nodeKeys g :=
      fun n hn => hkeys n (List.mem_cons_of_mem m hn)
    have hrest_edges : ∀ n ∈ rest, edgeMem g vertex n = true :=
      fun n hn => hedges n (List.mem_cons_of_mem m hn)
    have hrest_nodup : rest.Nodup := (List.nodup_cons.mp hnodup).2
    have hm_rest : m ∉ rest := (List.nodup_cons.mp hnodup).1
    by_cases hm : s.state m = .unexplored
    · -- tree edge and recursive visit
      have hclsA : ClassOk ({ s with
          predecessor := upd s.predecessor m (some vertex)
          classification := dictSet s.classification (vertex, m) EdgeClass.tree } : DfsState) :=
        ClassOk_write s _ vertex m EdgeClass.tree rfl rfl hvert hclass
      obtain ⟨s2, hresC, hmonoC, hfinC, hchgC, hfrzC, hclsC, hinvC, hcntC, hV9C, hV10C⟩ :=
        hV m time { s with
          predecessor := upd s.predecessor m (some vertex)
          classification := dictSet s.classification (vertex, m) EdgeClass.tree }
          hm hmkeys hclsA hcount
      have hs2vert : s2.state vertex = .discovered := by
        rw [hmonoC vertex hvge]; exact hvert
      have hcnt2 : unexploredCount g s2.state < unexploredCount g s.state := hcntC
      obtain ⟨s3, hresR, hmonoR, hchgR, hfrzAR, hfrzVR, hclsR, hinvR, hcntR, hS8R, hbpR,
          hS9bR, hS9cR, hnbR⟩ :=
        ihns s2 hs2vert hrest_keys hrest_nodup hrest_edges hclsC (by omega)
      have hInv3A : Inv3 g s → Inv3 g ({ s with
          predecessor := upd s.predecessor m (some vertex)
          classification := dictSet s.classification (vertex, m) EdgeClass.tree } : DfsState) :=
        fun h => Inv3_write g s _ vertex m EdgeClass.tree rfl rfl hvert h
      have hbpA : HasBackFin s → HasBackFin ({ s with
          predecessor := upd s.predecessor m (some vertex)
          classification := dictSet s.classification (vertex, m) EdgeClass.tree } : DfsState) :=
        fun h => HasBackFin_write s _ vertex m EdgeClass.tree rfl rfl hvert h
      have hbpC : HasBackFin ({ s with
          predecessor := upd s.predecessor m (some vertex)
          classification := dictSet s.classification (vertex, m) EdgeClass.tree } : DfsState) →
          HasBackFin s2 := by
        rintro ⟨a, b, hab, hfin⟩
        refine ⟨a, b, ?_, ?_⟩
        · rw [hfrzC a b (fun hc => NodeState.noConfusion (hfin.symm.trans hc))]
          exact hab
        · rw [hmonoC a (fun hc => NodeState.noConfusion (hfin.symm.trans hc))]
          exact hfin
      have hbp23 : HasBackFin s2 → HasBackFin s3 := hbpR
      refine ⟨s3, ?_, ?_, ?_, ?_, ?_, hclsR, ?_, ?_, ?_, ?_, ?_, ?_, ?_⟩
      · simp only [dfs_scan, if_pos hm, hresC, hresR]
      · intro n hn
        rw [hmonoR n (by rw [hmonoC n hn]; exact hn), hmonoC n hn]
      · intro n hn
        by_cases h2 : s2.state n = s.state n
        · rw [← h2] at hn
          obtain ⟨ha, hb, hc⟩ := hchgR n hn
          rw [h2] at ha
          exact ⟨ha, hb, hc⟩
        · obtain ⟨ha, hb, hc⟩ := hchgC n h2
          refine ⟨ha, ?_, hc⟩
          rw [hmonoR n (by rw [hb]; exact fun h3 => NodeState.noConfusion h3)]
          exact hb
      · intro a b ha hav
        have h1 : dictGet? s3.classification (a, b) = dictGet? s2.classification (a, b) :=
          hfrzAR a b (by rw [hmonoC a ha]; exact ha) hav
        have h2 : dictGet? s2.classification (a, b) =
            dictGet? (dictSet s.classification (vertex, m) EdgeClass.tree) (a, b) :=
          hfrzC a b ha
        rw [h1, h2]
        exact dictGet?_dictSet_ne s.classification (vertex, m) (a, b) EdgeClass.tree
          (fun he => hav (congrArg Prod.fst he))
      · intro b hb
        have hbm : b ≠ m := fun he => hb (by rw [he]; exact List.mem_cons_self m rest)
        have hbr : b ∉ rest := fun hr => hb (List.mem_cons_of_mem m hr)
        have h1 : dictGet? s3.classification (vertex, b) =
            dictGet? s2.classification (vertex, b) := hfrzVR b hbr
        have h2 : dictGet? s2.classification (vertex, b) =
            dictGet? (dictSet s.classification (vertex, m) EdgeClass.tree) (vertex, b) :=
          hfrzC vertex b hvge
        rw [h1, h2]
        exact dictGet?_dictSet_ne s.classification (vertex, m) (vertex, b) EdgeClass.tree
          (fun he => hbm (congrArg Prod.snd he))
      · exact fun h => hinvR (hinvC (hInv3A h))
      · omega
      · intro v hv2
        rcases List.mem_cons.mp hv2 with he | hvr
        · rw [he]
          left
          rw [hmonoR m (by rw [hfinC]; exact fun h3 => NodeState.noConfusion h3)]
          exact hfinC
        · exact hS8R v hvr
      · exact fun h => hbp23 (hbpC (hbpA h))
      · intro hsym hinv x hx hx2 hadjx
        by_cases h2 : s2.state x = .unexplored
        · exact hS9bR hsym (hinvC (hInv3A hinv)) x h2 hx2 hadjx
        · exact hbp23 (hV9C hsym (hInv3A hinv) x hx h2 hadjx)
      · intro hsym hinv _
        left
        have hedgeMV : edgeMem g m vertex = true := hsym vertex m hmedge
        have hinv2 : Inv3 g s2 := hinvC (hInv3A hinv)
        rcases hinv2 m hfinC vertex hedgeMV with h1 | h2
        · rw [hs2vert] at h1
          exact absurd h1 (fun hc => NodeState.noConfusion hc)
        · exact hbp23 ⟨m, vertex, h2, hfinC⟩
      · intro hacy hgrey hnb
        have hnbA : NoBack ({ s with
            predecessor := upd s.predecessor m (some vertex)
            classification := dictSet s.classification (vertex, m) EdgeClass.tree } : DfsState) :=
          NoBack_write s _ vertex m EdgeClass.tree rfl
            (fun hc => EdgeClass.noConfusion hc) hnb
        have hgreyA : GreyReach g ({ s with
            predecessor := upd s.predecessor m (some vertex)
            classification := dictSet s.classification (vertex, m) EdgeClass.tree } : DfsState) m := by
          intro n hn
          exact Relation.ReflTransGen.tail (hgrey n hn) hmedge
        have hnb2 : NoBack s2 := hV10C hacy hgreyA hnbA
        have hgrey2 : GreyReach g s2 vertex := by
          intro n hn
          have hiff := disc_iff_of_mono hmonoC hchgC n
          exact hgrey n (hiff.mp hn)
        exact hnbR hacy hgrey2 hnb2
    · by_cases hm2 : s.state m = .discovered
      · -- back edge
        obtain ⟨s3, hresR, hmonoR, hchgR, hfrzAR, hfrzVR, hclsR, hinvR, hcntR, hS8R, hbpR,
            hS9bR, hS9cR, hnbR⟩ :=
          ihns { s with classification := dictSet s.classification (vertex, m) EdgeClass.back }
            hvert hrest_keys hrest_nodup hrest_edges
            (ClassOk_write s _ vertex m EdgeClass.back rfl rfl hvert hclass) hcount
        have hbackm : dictGet? s3.classification (vertex, m) = some EdgeClass.back := by
          rw [hfrzVR m hm_rest]
          exact dictGet?_dictSet_self _ _ _
        refine ⟨s3, ?_, hmonoR, hchgR, ?_, ?_, hclsR, ?_, hcntR, ?_, ?_, ?_, ?_, ?_⟩
        · simp only [dfs_scan, if_neg hm, if_pos hm2, hresR]
        · intro a b ha hav
          rw [hfrzAR a b ha hav]
          exact dictGet?_dictSet_ne s.classification (vertex, m) (a, b) EdgeClass.back
            (fun he => hav (congrArg Prod.fst he))
        · intro b hb
          have hbm : b ≠ m := fun he => hb (by rw [he]; exact List.mem_cons_self m rest)
          have hbr : b ∉ rest := fun hr => hb (List.mem_cons_of_mem m hr)
          rw [hfrzVR b hbr]
          exact dictGet?_dictSet_ne s.classification (vertex, m) (vertex, b) EdgeClass.back
            (fun he => hbm (congrArg Prod.snd he))
        · exact fun h => hinvR (Inv3_write g s _ vertex m EdgeClass.back rfl rfl hvert h)
        · intro v hv2
          rcases List.mem_cons.mp hv2 with he | hvr
          · rw [he]
            right
            exact hbackm
          · exact hS8R v hvr
        · exact fun h => hbpR (HasBackFin_write s _ vertex m EdgeClass.back rfl rfl hvert h)
        · intro hsym hinv x hx hx2 hadjx
          exact hS9bR hsym (Inv3_write g s _ vertex m EdgeClass.back rfl rfl hvert hinv)
            x hx hx2 hadjx
        · intro hsym hinv _
          right
          exact ⟨m, List.mem_cons_self m rest, hbackm⟩
        · intro hacy hgrey hnb
          exact absurd (Relation.TransGen.tail' (hgrey m hm2) hmedge) (hacy m)
      · -- m is finished: cross or forward edge
        have hm3 : s.state m = .finished := by
          cases hc : s.state m with
          | unexplored => exact absurd hc hm
          | discovered => exact absurd hc hm2
          | finished => rfl
        by_cases hcmp : (s.discovered vertex).getD 0 > (s.discovered m).getD 0
        · obtain ⟨s3, hresR, hmonoR, hchgR, hfrzAR, hfrzVR, hclsR, hinvR, hcntR, hS8R, hbpR,
              hS9bR, hS9cR, hnbR⟩ :=
            ihns { s with classification := dictSet s.classification (vertex, m) EdgeClass.cross }
              hvert hrest_keys hrest_nodup hrest_edges
              (ClassOk_write s _ vertex m EdgeClass.cross rfl rfl hvert hclass) hcount
          refine ⟨s3, ?_, hmonoR, hchgR, ?_, ?_, hclsR, ?_, hcntR, ?_, ?_, ?_, ?_, ?_⟩
          · simp only [dfs_scan, if_neg hm, if_neg hm2, if_pos hcmp, hresR]
          · intro a b ha hav
            rw [hfrzAR a b ha hav]
            exact dictGet?_dictSet_ne s.classification (vertex, m) (a, b) EdgeClass.cross
              (fun he => hav (congrArg Prod.fst he))
          · intro b hb
            have hbm : b ≠ m := fun he => hb (by rw [he]; exact List.mem_cons_self m rest)
            have hbr : b ∉ rest := fun hr => hb (List.mem_cons_of_mem m hr)
            rw [hfrzVR b hbr]
            exact dictGet?_dictSet_ne s.classification (vertex, m) (vertex, b) EdgeClass.cross
              (fun he => hbm (congrArg Prod.snd he))
          · exact fun h => hinvR (Inv3_write g s _ vertex m EdgeClass.cross rfl rfl hvert h)
          · intro v hv2
            rcases List.mem_cons.mp hv2 with he | hvr
            · rw [he]
              left
              rw [hmonoR m (by
                show s.state m ≠ .unexplored
                rw [hm3]; exact fun h3 => NodeState.noConfusion h3)]
              exact hm3
            · exact hS8R v hvr
          · exact fun h => hbpR (HasBackFin_write s _ vertex m EdgeClass.cross rfl rfl hvert h)
          · intro hsym hinv x hx hx2 hadjx
            exact hS9bR hsym (Inv3_write g s _ vertex m EdgeClass.cross rfl rfl hvert hinv)
              x hx hx2 hadjx
          · intro hsym hinv _
            left
            have hedgeMV : edgeMem g m vertex = true := hsym vertex m hmedge
            rcases hinv m hm3 vertex hedgeMV with h1 | h2
            · rw [hvert] at h1
              exact absurd h1 (fun hc => NodeState.noConfusion hc)
            · exact hbpR (HasBackFin_write s _ vertex m EdgeClass.cross rfl rfl hvert
                ⟨m, vertex, h2, hm3⟩)
          · intro hacy hgrey hnb
            exact hnbR hacy hgrey (NoBack_write s _ vertex m EdgeClass.cross rfl
              (fun hc => EdgeClass.noConfusion hc) hnb)
        · obtain ⟨s3, hresR, hmonoR, hchgR, hfrzAR, hfrzVR, hclsR, hinvR, hcntR, hS8R, hbpR,
              hS9bR, hS9cR, hnbR⟩ :=
            ihns { s with classification := dictSet s.classification (vertex, m) EdgeClass.forward }
              hvert hrest_keys hrest_nodup hrest_edges
              (ClassOk_write s _ vertex m EdgeClass.forward rfl rfl hvert hclass) hcount
          refine ⟨s3, ?_, hmonoR, hchgR, ?_, ?_, hclsR, ?_, hcntR, ?_, ?_, ?_, ?_, ?_⟩
          · simp only [dfs_scan, if_neg hm, if_neg hm2, if_neg hcmp, hresR]
          · intro a b ha hav
            rw [hfrzAR a b ha hav]
            exact dictGet?_dictSet_ne s.classification (vertex, m) (a, b) EdgeClass.forward
              (fun he => hav (congrArg Prod.fst he))
          · intro b hb
            have hbm : b ≠ m := fun he => hb (by rw [he]; exact List.mem_cons_self m rest)
            have hbr : b ∉ rest := fun hr => hb (List.mem_cons_of_mem m hr)
            rw [hfrzVR b hbr]
            exact dictGet?_dictSet_ne s.classification (vertex, m) (vertex, b) EdgeClass.forward
              (fun he => hbm (congrArg Prod.snd he))
          · exact fun h => hinvR (Inv3_write g s _ vertex m EdgeClass.forward rfl rfl hvert h)
          · intro v hv2
            rcases List.mem_cons.mp hv2 with he | hvr
            · rw [he]
              left
              rw [hmonoR m (by
                show s.state m ≠ .unexplored
                rw [hm3]; exact fun h3 => NodeState.noConfusion h3)]
              exact hm3
            · exact hS8R v hvr
          · exact fun h => hbpR (HasBackFin_write s _ vertex m EdgeClass.forward rfl rfl hvert h)
          · intro hsym hinv x hx hx2 hadjx
            exact hS9bR hsym (Inv3_write g s _ vertex m EdgeClass.forward rfl rfl hvert hinv)
              x hx hx2 hadjx
          · intro hsym hinv _
            left
            have hedgeMV : edgeMem g m vertex = true := hsym vertex m hmedge
            rcases hinv m hm3 vertex hedgeMV with h1 | h2
            · rw [hvert] at h1
              exact absurd h1 (fun hc => NodeState.noConfusion hc)
            · exact hbpR (HasBackFin_write s _ vertex m EdgeClass.forward rfl rfl hvert
                ⟨m, vertex, h2, hm3⟩)
          · intro hacy hgrey hnb
            exact hnbR hacy hgrey (NoBack_write s _ vertex m EdgeClass.forward rfl
              (fun hc => EdgeClass.noConfusion hc) hnb)

theorem visit_of_scan (g : Graph) (hWF : WF g) (f : Nat) (hS : ScanSpec g f) :
    VisitSpec g (f + 1) := by
  intro vertex time s hm hkeys hclass hcount
  have hvek : vertex ∈ g.edges.map Prod.fst := by
    have h1 : vertex ∈ edgeKeys g := by rw [hWF.2.1]; exact hkeys
    exact h1
  obtain ⟨adjV, hadjV⟩ := dictGet?_isSome_of_mem hvek
  have hadj_keys : ∀ n ∈ adjV.map Prod.fst, n ∈ nodeKeys g := by
    intro n hn
    obtain ⟨q, hq, hq1⟩ := List.mem_map.mp hn
    have h2 := hWF.2.2.2 (vertex, adjV) (dictGet?_mem_entries hadjV) q hq
    exact hq1 ▸ h2
  have hadj_nodup : (adjV.map Prod.fst).Nodup :=
    hWF.2.2.1 (vertex, adjV) (dictGet?_mem_entries hadjV)
  have hadj_edges : ∀ n ∈ adjV.map Prod.fst, edgeMem g vertex n = true := by
    intro n hn
    rw [edgeMem_eq_dictMem_getD, hadjV]
    exact (dictMem_iff_mem_keys adjV n).mpr hn
  have hclass1 : ClassOk ({ s with
      state := upd s.state vertex NodeState.discovered
      discovered := upd s.discovered vertex (some (time + 1)) } : DfsState) := by
    refine ⟨?_, hclass.2⟩
    intro a b k hk
    by_cases ha : a = vertex
    · show upd s.state vertex NodeState.discovered a ≠ NodeState.unexplored
      rw [ha, upd_self]
      exact fun hc => NodeState.noConfusion hc
    · show upd s.state vertex NodeState.discovered a ≠ NodeState.unexplored
      rw [upd_ne s.state vertex a NodeState.discovered ha]
      exact hclass.1 a b k hk
  have hdrop1 : unexploredCount g (upd s.state vertex NodeState.discovered) + 1 ≤
      unexploredCount g s.state := by
    have h := filter_unex_drop (nodeKeys g) hWF.1 s.state
      (upd s.state vertex NodeState.discovered) [vertex]
      (List.nodup_singleton vertex)
      (by intro x hx
          rw [List.mem_singleton.mp hx]
          exact hkeys)
      (by intro x hx
          rw [List.mem_singleton.mp hx]
          exact ⟨hm, by rw [upd_self]; exact fun hc => NodeState.noConfusion hc⟩)
      (by intro x hx hxN
          have hxv : x ≠ vertex := fun he => hxN (by rw [he]; exact List.mem_singleton_self vertex)
          rw [upd_ne s.state vertex x NodeState.discovered hxv])
    exact h
  have hcnt1 : unexploredCount g (upd s.state vertex NodeState.discovered) < f := by omega
  obtain ⟨s2, hrun, hmono2, hchg2, hfrzA2, hfrzV2, hcls2, hinv2, hcnt2, hS82, hbp2,
      hS9b2, hS9c2, hnb2⟩ :=
    hS vertex (time + 1) (adjV.map Prod.fst)
      { s with
        state := upd s.state vertex NodeState.discovered
        discovered := upd s.discovered vertex (some (time + 1)) }
      (upd_self s.state vertex NodeState.discovered) hadj_keys hadj_nodup hadj_edges
      hclass1 hcnt1
  have hs2v : s2.state vertex = NodeState.discovered := by
    have h1 := hmono2 vertex (by
      show upd s.state vertex NodeState.discovered vertex ≠ NodeState.unexplored
      rw [upd_self]
      exact fun hc => NodeState.noConfusion hc)
    rw [h1]
    exact upd_self s.state vertex NodeState.discovered
  have hinv1of : Inv3 g s → Inv3 g ({ s with
      state := upd s.state vertex NodeState.discovered
      discovered := upd s.discovered vertex (some (time + 1)) } : DfsState) := by
    intro hinv a ha b hb
    have hav : a ≠ vertex := by
      intro he
      rw [he] at ha
      have h2 : NodeState.discovered = NodeState.finished :=
        (upd_self s.state vertex NodeState.discovered).symm.trans ha
      exact NodeState.noConfusion h2
    have hsa : s.state a = NodeState.finished :=
      (upd_ne s.state vertex a NodeState.discovered hav).symm.trans ha
    rcases hinv a hsa b hb with h1 | h2
    · left
      have hbv : b ≠ vertex := by
        intro he
        rw [he, hm] at h1
        exact NodeState.noConfusion h1
      show upd s.state vertex NodeState.discovered b = NodeState.finished
      rw [upd_ne s.state vertex b NodeState.discovered hbv]
      exact h1
    · right
      exact h2
  have hbp2' : HasBackFin s2 → HasBackFin ({ s2 with
      state := upd s2.state vertex NodeState.finished
      finished := upd s2.finished vertex (some (time + 1 + 1)) } : DfsState) := by
    rintro ⟨a, b, hab, hfin⟩
    refine ⟨a, b, hab, ?_⟩
    by_cases hav : a = vertex
    · show upd s2.state vertex NodeState.finished a = NodeState.finished
      rw [hav, upd_self]
    · show upd s2.state vertex NodeState.finished a = NodeState.finished
      rw [upd_ne s2.state vertex a NodeState.finished hav]
      exact hfin
  refine ⟨{ s2 with
      state := upd s2.state vertex NodeState.finished
      finished := upd s2.finished vertex (some (time + 1 + 1)) }, ?_, ?_, ?_, ?_, ?_, ?_,
      ?_, ?_, ?_, ?_⟩
  · simp only [dfs_visit, hadjV, hrun]
  · intro n hn
    have hnv : n ≠ vertex := fun he => hn (by rw [he]; exact hm)
    show upd s2.state vertex NodeState.finished n = s.state n
    rw [upd_ne s2.state vertex n NodeState.finished hnv]
    have hs1n : upd s.state vertex NodeState.discovered n = s.state n :=
      upd_ne s.state vertex n NodeState.discovered hnv
    have h1 : s2.state n = upd s.state vertex NodeState.discovered n :=
      hmono2 n (by
        show upd s.state vertex NodeState.discovered n ≠ NodeState.unexplored
        rw [hs1n]
        exact hn)
    rw [h1, hs1n]
  · exact upd_self s2.state vertex NodeState.finished
  · intro n hn
    by_cases hnv : n = vertex
    · rw [hnv]
      exact ⟨hm, upd_self s2.state vertex NodeState.finished, hkeys⟩
    · have hupd : upd s2.state vertex NodeState.finished n = s2.state n :=
        upd_ne s2.state vertex n NodeState.finished hnv
      have hs1n : upd s.state vertex NodeState.discovered n = s.state n :=
        upd_ne s.state vertex n NodeState.discovered hnv
      have hn2 : s2.state n ≠ s.state n := fun he => hn (hupd.trans he)
      have hn3 : s2.state n ≠ upd s.state vertex NodeState.discovered n := by
        rw [hs1n]
        exact hn2
      obtain ⟨ha, hb, hc⟩ := hchg2 n hn3
      refine ⟨?_, ?_, hc⟩
      · rw [← hs1n]
        exact ha
      · show upd s2.state vertex NodeState.finished n = NodeState.finished
        rw [hupd]
        exact hb
  · intro a b ha
    have hav : a ≠ vertex := fun he => ha (by rw [he]; exact hm)
    have hs1a : upd s.state vertex NodeState.discovered a = s.state a :=
      upd_ne s.state vertex a NodeState.discovered hav
    exact hfrzA2 a b (by
      show upd s.state vertex NodeState.discovered a ≠ NodeState.unexplored
      rw [hs1a]
      exact ha) hav
  · refine ⟨?_, hcls2.2⟩
    intro a b k hk
    by_cases hav : a = vertex
    · show upd s2.state vertex NodeState.finished a ≠ NodeState.unexplored
      rw [hav, upd_self]
      exact fun hc => NodeState.noConfusion hc
    · show upd s2.state vertex NodeState.finished a ≠ NodeState.unexplored
      rw [upd_ne s2.state vertex a NodeState.finished hav]
      exact hcls2.1 a b k hk
  · intro hinv
    have hinv2' : Inv3 g s2 := hinv2 (hinv1of hinv)
    intro a ha b hb
    by_cases hav : a = vertex
    · have hbmem : b ∈ adjV.map Prod.fst := by
        rw [hav] at hb
        rw [edgeMem_eq_dictMem_getD, hadjV] at hb
        exact (dictMem_iff_mem_keys adjV b).mp hb
      rcases hS82 b hbmem with h1 | h2
      · left
        by_cases hbv : b = vertex
        · show upd s2.state vertex NodeState.finished b = NodeState.finished
          rw [hbv, upd_self]
        · show upd s2.state vertex NodeState.finished b = NodeState.finished
          rw [upd_ne s2.state vertex b NodeState.finished hbv]
          exact h1
      · right
        rw [hav]
        exact h2
    · have hsa2 : s2.state a = NodeState.finished :=
        (upd_ne s2.state vertex a NodeState.finished hav).symm.trans ha
      rcases hinv2' a hsa2 b hb with h1 | h2
      · left
        by_cases hbv : b = vertex
        · show upd s2.state vertex NodeState.finished b = NodeState.finished
          rw [hbv, upd_self]
        · show upd s2.state vertex NodeState.finished b = NodeState.finished
          rw [upd_ne s2.state vertex b NodeState.finished hbv]
          exact h1
      · right
        exact h2
  · have heqf : unexploredCount g (upd s2.state vertex NodeState.finished) =
        unexploredCount g s2.state := by
      unfold unexploredCount
      congr 1
      apply List.filter_congr
      intro x hx
      show (upd s2.state vertex NodeState.finished x == NodeState.unexplored) =
        (s2.state x == NodeState.unexplored)
      by_cases hxv : x = vertex
      · rw [hxv, upd_self, hs2v]
        rfl
      · rw [upd_ne s2.state vertex x NodeState.finished hxv]
    show unexploredCount g (upd s2.state vertex NodeState.finished) < unexploredCount g s.state
    rw [heqf]
    have h2 : unexploredCount g s2.state ≤
        unexploredCount g (upd s.state vertex NodeState.discovered) := hcnt2
    omega
  · intro hsym hinv x hx hx2 hadjx
    by_cases hxv : x = vertex
    · obtain ⟨adjx, hadjx1, hadjx2⟩ := hadjx
      rw [hxv] at hadjx1
      have hxadj : adjx = adjV := Option.some.inj (hadjx1.symm.trans hadjV)
      have hne : adjV.map Prod.fst ≠ [] := fun he => hadjx2 (by
        rw [hxadj]
        exact List.map_eq_nil_iff.mp he)
      rcases hS9c2 hsym (hinv1of hinv) hne with h1 | ⟨b, hbns, hback⟩
      · exact hbp2' h1
      · exact ⟨vertex, b, hback, upd_self s2.state vertex NodeState.finished⟩
    · have hs1x : upd s.state vertex NodeState.discovered x = NodeState.unexplored := by
        rw [upd_ne s.state vertex x NodeState.discovered hxv]
        exact hx
      have hs2x : s2.state x ≠ NodeState.unexplored := by
        intro he
        exact hx2 (by
          show upd s2.state vertex NodeState.finished x = NodeState.unexplored
          rw [upd_ne s2.state vertex x NodeState.finished hxv]
          exact he)
      exact hbp2' (hS9b2 hsym (hinv1of hinv) x hs1x hs2x hadjx)
  · intro hacy hgrey hnb
    have hgrey1 : GreyReach g ({ s with
        state := upd s.state vertex NodeState.discovered
        discovered := upd s.discovered vertex (some (time + 1)) } : DfsState) vertex := by
      intro n hn
      by_cases hnv : n = vertex
      · rw [hnv]
        exact Relation.ReflTransGen.refl
      · refine hgrey n ?_
        have h1 : upd s.state vertex NodeState.discovered n = s.state n :=
          upd_ne s.state vertex n NodeState.discovered hnv
        exact h1.symm.trans hn
    exact hnb2 hacy hgrey1 hnb

theorem dfs_bundle (g : Graph) (hWF : WF g) : ∀ fuelN, VisitSpec g fuelN := by
  intro fuelN
  induction fuelN with
  | zero =>
    intro vertex time s hm hkeys hclass hcount
    exact absurd hcount (by omega)
  | succ f ih => exact visit_of_scan g hWF f (scan_of_visit g f ih)

theorem dfs_outer_spec (g : Graph) (hWF : WF g) :
    ∀ (keys : List NodeId) (s : DfsState),
    (∀ n ∈ keys, n ∈ nodeKeys g) → ClassOk s → Inv3 g s →
    ∃ sF, dfs_outer g keys s = Res.ok sF ∧
      (∀ n, s.state n ≠ .unexplored → sF.state n = s.state n) ∧
      (∀ n, sF.state n ≠ s.state n → s.state n = .unexplored ∧ sF.state n = .finished) ∧
      (∀ v ∈ keys, sF.state v ≠ .unexplored) ∧
      ClassOk sF ∧ Inv3 g sF ∧
      (HasBackFin s → HasBackFin sF) ∧
      (SymG g → ∀ x, s.state x = .unexplored → sF.state x ≠ .unexplored →
        (∃ adjx, dictGet? g.edges x = some adjx ∧ adjx ≠ []) → HasBackFin sF) ∧
      ((∀ n, s.state n ≠ .discovered) → Acyclic g → NoBack s → NoBack sF) := by
  intro keys
  induction keys with
  | nil =>
    intro s hkeys hclass hinv
    exact ⟨s, rfl, fun n _ => rfl, fun n h => absurd rfl h,
      fun v hv => absurd hv (List.not_mem_nil v),
      hclass, hinv, fun h => h, fun _ x hx hx2 _ => absurd hx hx2, fun _ _ h => h⟩
  | cons v rest ih =>
    intro s hkeys hclass hinv
    have hvk : v ∈ nodeKeys g := hkeys v (List.mem_cons_self v rest)
    have hrest : ∀ n ∈ rest, n ∈ nodeKeys g := fun n hn => hkeys n (List.mem_cons_of_mem v hn)
    by_cases hsv : s.state v = .unexplored
    · have hcnt : unexploredCount g s.state < g.nodes.length + 1 := by
        have h1 : unexploredCount g s.state ≤ (nodeKeys g).length :=
          List.length_filter_le _ _
        have h2 : (nodeKeys g).length = g.nodes.length := List.length_map _ _
        omega
      obtain ⟨s1, heq1, hmono1, hfin1, hchg1, hfrz1, hcls1, hinv1p, hcnt1, hV9, hV10⟩ :=
        dfs_bundle g hWF (g.nodes.length + 1) v 0 s hsv hvk hclass hcnt
      obtain ⟨sF, heqR, hmonoR, hchgR, hallR, hclsR, hinvR, hbpR, hS9R, hnbR⟩ :=
        ih s1 hrest hcls1 (hinv1p hinv)
      have hbpV : HasBackFin s → HasBackFin s1 := by
        rintro ⟨a, b, hab, hfin⟩
        have hane : s.state a ≠ .unexplored := by
          rw [hfin]; exact fun hc => NodeState.noConfusion hc
        exact ⟨a, b, (hfrz1 a b hane).trans hab, by rw [hmono1 a hane]; exact hfin⟩
      refine ⟨sF, ?_, ?_, ?_, ?_, hclsR, hinvR, ?_, ?_, ?_⟩
      · simp only [dfs_outer, if_pos hsv, heq1, heqR]
      · intro n hn
        rw [hmonoR n (by rw [hmono1 n hn]; exact hn), hmono1 n hn]
      · intro n hn
        by_cases h2 : s1.state n = s.state n
        · rw [← h2] at hn
          obtain ⟨ha, hb⟩ := hchgR n hn
          rw [h2] at ha
          exact ⟨ha, hb⟩
        · obtain ⟨ha, hb, -⟩ := hchg1 n h2
          refine ⟨ha, ?_⟩
          rw [hmonoR n (by rw [hb]; exact fun h3 => NodeState.noConfusion h3)]
          exact hb
      · intro w hw
        rcases List.mem_cons.mp hw with he | hwr
        · rw [he]
          rw [hmonoR v (by rw [hfin1]; exact fun h3 => NodeState.noConfusion h3), hfin1]
          exact fun h3 => NodeState.noConfusion h3
        · exact hallR w hwr
      · exact fun h => hbpR (hbpV h)
      · intro hsym x hx hx2 hadjx
        by_cases h2 : s1.state x = .unexplored
        · exact hS9R hsym x h2 hx2 hadjx
        · exact hbpR (hV9 hsym hinv x hx h2 hadjx)
      · intro hnogrey hacy hnb
        have hgrey : GreyReach g s v := by
          intro n hn
          exact absurd hn (hnogrey n)
        have hnb1 : NoBack s1 := hV10 hacy hgrey hnb
        have hnogrey1 : ∀ n, s1.state n ≠ .discovered := by
          intro n
          by_cases h2 : s1.state n = s.state n
          · rw [h2]; exact hnogrey n
          · obtain ⟨-, hb, -⟩ := hchg1 n h2
            rw [hb]; exact fun h3 => NodeState.noConfusion h3
        exact hnbR hnogrey1 hacy hnb1
    · obtain ⟨sF, heqR, hmonoR, hchgR, hallR, hclsR, hinvR, hbpR, hS9R, hnbR⟩ :=
        ih s hrest hclass hinv
      refine ⟨sF, ?_, hmonoR, hchgR, ?_, hclsR, hinvR, hbpR, hS9R, hnbR⟩
      · simp only [dfs_outer, if_neg hsv, heqR]
      · intro w hw
        rcases List.mem_cons.mp hw with he | hwr
        · rw [he]
          rw [hmonoR v hsv]
          exact hsv
        · exact hallR w hwr

theorem dfs_run (g : Graph) (hWF : WF g) :
    ∃ sF, dfs g = Res.ok sF ∧
      (∀ v ∈ nodeKeys g, sF.state v ≠ .unexplored) ∧
      ClassOk sF ∧
      (SymG g → ∀ x ∈ nodeKeys g,
        (∃ adjx, dictGet? g.edges x = some adjx ∧ adjx ≠ []) → HasBackFin sF) ∧
      (Acyclic g → NoBack sF) := by
  obtain ⟨sF, heq, hmono, hchg, hall, hcls, hinv, hbp, hS9, hnb⟩ :=
    dfs_outer_spec g hWF (nodeKeys g)
      { state := fun _ => .unexplored
        predecessor := fun _ => none
        discovered := fun _ => none
        classification := []
        finished := fun _ => none }
      (fun n hn => hn)
      ⟨fun a b k hk => absurd hk (by simp [dictGet?]), by simp⟩
      (fun a ha _ _ => absurd ha (fun hc => NodeState.noConfusion hc))
  refine ⟨sF, heq, hall, hcls, ?_, ?_⟩
  · intro hsym x hxk hadjx
    exact hS9 hsym x rfl (hall x hxk) hadjx
  · intro hacy
    refine hnb (fun n hc => NodeState.noConfusion hc) hacy ?_
    intro a b hab
    simp [dictGet?] at hab

theorem is_acyclic_ok_true_of_acyclic (g : Graph) (hWF : WF g) (hacy : Acyclic g) :
    is_acyclic g = Res.ok true := by
  obtain ⟨sF, heq, hall, hcls, hS9, hnb⟩ := dfs_run g hWF
  have hnbF := hnb hacy
  have hany : sF.classification.any (fun kv => kv.2 == EdgeClass.back) = false := by
    cases hc : sF.classification.any (fun kv => kv.2 == EdgeClass.back) with
    | false => rfl
    | true =>
      obtain ⟨kv, hkv, hp⟩ := List.any_eq_true.mp hc
      have hv : kv.2 = EdgeClass.back := eq_of_beq hp
      have hget : dictGet? sF.classification kv.1 = some kv.2 :=
        dictGet?_of_mem_nodup hcls.2 hkv
      rw [hv] at hget
      exact absurd hget (hnbF kv.1.1 kv.1.2)
  simp only [is_acyclic, heq, hany, Bool.not_false]

theorem is_acyclic_ok_false_of_back (g : Graph) (hWF : WF g) (hsym : SymG g)
    (u v : NodeId) (huv : edgeMem g u v = true) :
    is_acyclic g = Res.ok false := by
  obtain ⟨sF, heq, hall, hcls, hS9, hnb⟩ := dfs_run g hWF
  have huk : u ∈ nodeKeys g := edgeMem_src_mem hWF huv
  have hadj : ∃ adjx, dictGet? g.edges u = some adjx ∧ adjx ≠ [] := by
    rw [edgeMem_eq_dictMem_getD] at huv
    cases hgu : dictGet? g.edges u with
    | none =>
      rw [hgu] at huv
      simp [dictMem] at huv
    | some adj =>
      rw [hgu] at huv
      refine ⟨adj, rfl, ?_⟩
      intro he
      rw [he] at huv
      simp [dictMem] at huv
  obtain ⟨a, b, hab, hfin⟩ := hS9 hsym u huk hadj
  have hmem : ((a, b), EdgeClass.back) ∈ sF.classification := dictGet?_mem_entries hab
  have hany : sF.classification.any (fun kv => kv.2 == EdgeClass.back) = true :=
    List.any_eq_true.mpr ⟨((a, b), EdgeClass.back), hmem, by simp⟩
  simp only [is_acyclic, heq, hany, Bool.not_true]

theorem acyclic_of_rank (g : Graph) (rank : NodeId → Nat)
    (hrank : ∀ p ∈ edgePairs g, rank p.1 < rank p.2) : Acyclic g := by
  intro n hcyc
  have hstep : ∀ a b, edgeMem g a b = true → rank a < rank b := by
    intro a b hab
    exact hrank (a, b) (edgeMem_mem_edgePairs hab)
  have hlt : ∀ a b, Relation.TransGen (fun x y => edgeMem g x y = true) a b →
      rank a < rank b := by
    intro a b h
    induction h with
    | single h1 => exact hstep _ _ h1
    | tail h1 h2 ih => exact lt_trans ih (hstep _ _ h2)
  exact absurd (hlt n n hcyc) (lt_irrefl _)

theorem add_edge_preserves_undirected (g : Graph) (u v : NodeId) (a ua va : Option Attrs)
    (hdir : g.directed = false) (hWF : WF g) (hsym : SymG g) :
    (add_edge g u v a ua va).1.directed = false ∧ WF (add_edge g u v a ua va).1 ∧
      SymG (add_edge g u v a ua va).1 := by
  have hWF1 : WF (add_node g u ua).1 := WF_add_node g u ua hWF
  have hdir1 : (add_node g u ua).1.directed = false := by rw [directed_add_node]; exact hdir
  have hsym1 : SymG (add_node g u ua).1 := by
    intro x y hxy
    rw [edgeMem_add_node g u ua hWF] at hxy
    rw [edgeMem_add_node g u ua hWF]
    exact hsym x y hxy
  rw [add_edge_eq]
  dsimp only
  set g2 := (add_node ((add_node g u ua).1) v va).1 with hg2def
  have hWF2 : WF g2 := WF_add_node _ v va hWF1
  have hdir2 : g2.directed = false := by rw [hg2def, directed_add_node]; exact hdir1
  have hsym2 : SymG g2 := by
    intro x y hxy
    rw [hg2def, edgeMem_add_node _ v va hWF1] at hxy
    rw [hg2def, edgeMem_add_node _ v va hWF1]
    exact hsym1 x y hxy
  have hu2 : u ∈ nodeKeys g2 :=
    mem_nodeKeys_add_node_mono _ v u va (mem_nodeKeys_add_node_self g u ua)
  have hv2 : v ∈ nodeKeys g2 := mem_nodeKeys_add_node_self _ v va
  obtain ⟨adjU, hadjU⟩ : ∃ d, dictGet? g2.edges u = some d := by
    apply dictGet?_isSome_of_mem
    rw [show g2.edges.map Prod.fst = edgeKeys g2 from rfl, hWF2.2.1]
    exact hu2
  rw [hadjU, Option.getD_some]
  by_cases hold : dictMem adjU v = true
  · rw [if_pos hold]
    exact ⟨hdir2, hWF2, hsym2⟩
  · rw [if_neg hold]
    set attrs := a.getD [] with hattrs
    set gE : Graph := { g2 with edges := dictSet g2.edges u (dictSet adjU v attrs) } with hgEdef
    have hcond : (!gE.directed) = true := by
      show (!g2.directed) = true
      rw [hdir2]
      rfl
    rw [if_pos hcond]
    obtain ⟨hnk2, hek2, hadj2, htgt2⟩ := hWF2
    have hu2e : u ∈ g2.edges.map Prod.fst := by
      rw [show g2.edges.map Prod.fst = edgeKeys g2 from rfl, hek2]; exact hu2
    have hWFE : WF gE := by
      refine ⟨hnk2, ?_, ?_, ?_⟩
      · show (dictSet g2.edges u (dictSet adjU v attrs)).map Prod.fst = nodeKeys g2
        rw [keys_dictSet_mem _ _ _ hu2e]
        exact hek2
      · intro p hp
        rcases mem_dictSet_elim hp with he | hmem
        · rw [he]
          exact nodup_keys_dictSet _ _ _ (hadj2 (u, adjU) (dictGet?_mem_entries hadjU))
        · exact hadj2 p hmem
      · intro p hp q hq
        rcases mem_dictSet_elim hp with he | hmem
        · rw [he] at hq
          rcases mem_dictSet_elim hq with hqe | hqmem
          · rw [hqe]; exact hv2
          · exact htgt2 (u, adjU) (dictGet?_mem_entries hadjU) q hqmem
        · exact htgt2 p hmem q hq
    have hedgeE : ∀ x y, edgeMem gE x y = true ↔ (edgeMem g2 x y = true ∨ (x = u ∧ y = v)) :=
      fun x y => edgeMem_edges_dictSet g2 gE u v attrs adjU hadjU rfl x y
    obtain ⟨adjV2, hadjV2⟩ : ∃ d, dictGet? gE.edges v = some d := by
      apply dictGet?_isSome_of_mem
      rw [show gE.edges.map Prod.fst = edgeKeys gE from rfl, hWFE.2.1]
      exact hv2
    obtain ⟨hnkE, hekE, hadjE, htgtE⟩ := hWFE
    have hv2e : v ∈ gE.edges.map Prod.fst := by
      rw [show gE.edges.map Prod.fst = edgeKeys gE from rfl, hekE]; exact hv2
    have hWFF : WF ({ gE with
        edges := dictSet gE.edges v
          (dictSet ((dictGet? gE.edges v).getD []) u attrs) } : Graph) := by
      refine ⟨hnkE, ?_, ?_, ?_⟩
      · show (dictSet gE.edges v
            (dictSet ((dictGet? gE.edges v).getD []) u attrs)).map Prod.fst = nodeKeys gE
        rw [keys_dictSet_mem _ _ _ hv2e]
        exact hekE
      · intro p hp
        rcases mem_dictSet_elim hp with he | hmem
        · rw [he, hadjV2]
          exact nodup_keys_dictSet _ _ _ (hadjE (v, adjV2) (dictGet?_mem_entries hadjV2))
        · exact hadjE p hmem
      · intro p hp q hq
        rcases mem_dictSet_elim hp with he | hmem
        · rw [he] at hq
          rw [hadjV2] at hq
          rcases mem_dictSet_elim hq with hqe | hqmem
          · rw [hqe]; exact hu2
          · exact htgtE (v, adjV2) (dictGet?_mem_entries hadjV2) q hqmem
        · exact htgtE p hmem q hq
    have hedgeF : ∀ x y, edgeMem ({ gE with
        edges := dictSet gE.edges v
          (dictSet ((dictGet? gE.edges v).getD []) u attrs) } : Graph) x y = true ↔
        (edgeMem gE x y = true ∨ (x = v ∧ y = u)) := by
      intro x y
      refine edgeMem_edges_dictSet gE _ v u attrs ((dictGet? gE.edges v).getD []) ?_ rfl x y
      rw [hadjV2]
      rfl
    have hsymF : SymG ({ gE with
        edges := dictSet gE.edges v
          (dictSet ((dictGet? gE.edges v).getD []) u attrs) } : Graph) := by
      intro x y hxy
      rcases (hedgeF x y).mp hxy with hE1 | ⟨hx1, hy1⟩
      · rcases (hedgeE x y).mp hE1 with h2 | ⟨hx1, hy1⟩
        · exact (hedgeF y x).mpr (Or.inl ((hedgeE y x).mpr (Or.inl (hsym2 x y h2))))
        · rw [hx1, hy1]
          exact (hedgeF v u).mpr (Or.inr ⟨rfl, rfl⟩)
      · rw [hx1, hy1]
        exact (hedgeF u v).mpr (Or.inl ((hedgeE u v).mpr (Or.inr ⟨rfl, rfl⟩)))
    exact ⟨hdir2, hWFF, hsymF⟩

theorem buildGraph_inv_undirected (ops : List Op) :
    (buildGraph false ops).directed = false ∧ WF (buildGraph false ops) ∧
      SymG (buildGraph false ops) := by
  suffices h : ∀ g : Graph, g.directed = false → WF g → SymG g →
      (ops.foldl applyOp g).directed = false ∧ WF (ops.foldl applyOp g) ∧
        SymG (ops.foldl applyOp g) by
    refine h (emptyGraph false) rfl ?_ ?_
    · exact ⟨List.nodup_nil, rfl, by simp [emptyGraph], by simp [emptyGraph]⟩
    · intro x y hxy
      simp [emptyGraph, edgeMem, dictGet?] at hxy
  induction ops with
  | nil => exact fun g h1 h2 h3 => ⟨h1, h2, h3⟩
  | cons op rest ih =>
    intro g h1 h2 h3
    simp only [List.foldl_cons]
    cases op with
    | node id attrs =>
      apply ih
      · rw [show applyOp g (.node id attrs) = (add_node g id attrs).1 from rfl,
          directed_add_node]
        exact h1
      · exact WF_add_node g id attrs h2
      · rw [show applyOp g (.node id attrs) = (add_node g id attrs).1 from rfl]
        intro x y hxy
        rw [edgeMem_add_node g id attrs h2] at hxy
        rw [edgeMem_add_node g id attrs h2]
        exact h3 x y hxy
    | edge u v a ua va =>
      obtain ⟨hd, hw, hs2⟩ := add_edge_preserves_undirected g u v a ua va h1 h2 h3
      exact ih (applyOp g (.edge u v a ua va)) hd hw hs2

/-- C9: on any undirected graph built by the construction API that holds at least one
edge, dfs classifies some edge BACK (the symmetric adjacency entry installed by add_edge
guarantees one), so is_acyclic answers false and topological_sort and max_depth — which
both gate on is_acyclic — raise ValueError. -/
theorem C9_undirected_edge_cyclic (ops : List Op) (u v : NodeId)
    (hedge : edgeMem (buildGraph false ops) u v = true) :
    is_acyclic (buildGraph false ops) = Res.ok false ∧
    topological_sort (buildGraph false ops) = Res.valueError ∧
    max_depth (buildGraph false ops) = Res.valueError := by
  obtain ⟨hd, hw, hs⟩ := buildGraph_inv_undirected ops
  have hia : is_acyclic (buildGraph false ops) = Res.ok false :=
    is_acyclic_ok_false_of_back _ hw hs u v hedge
  refine ⟨hia, ?_, ?_⟩
  · simp only [topological_sort, hia]
  · simp only [max_depth, hia]

/-- Witness for C9: the undirected graph with the single stored pair 0–1 (both adjacency
entries installed by one add_edge call). -/
theorem C9_undirected_edge_cyclic_witness :
    edgeMem (buildGraph false [opE 0 1]) 0 1 = true ∧
    (is_acyclic (buildGraph false [opE 0 1]) = Res.ok false ∧
     topological_sort (buildGraph false [opE 0 1]) = Res.valueError ∧
     max_depth (buildGraph false [opE 0 1]) = Res.valueError) :=
  ⟨by decide, C9_undirected_edge_cyclic [opE 0 1] 0 1 (by decide)⟩

theorem filter_flip_single :
    ∀ (keys : List NodeId), keys.Nodup →
    ∀ (p q : NodeId → Bool) (v : NodeId),
      v ∈ keys → p v = true → q v = false →
      (∀ x, x ≠ v → q x = p x) →
      (keys.filter q).length + 1 ≤ (keys.filter p).length := by
  intro keys
  induction keys with
  | nil =>
    intro _ p q v hv
    exact absurd hv (List.not_mem_nil v)
  | cons k ks ih =>
    intro hnd p q v hv hp hq hsame
    simp only [List.nodup_cons] at hnd
    by_cases hvk : v = k
    · have hpk : p k = true := by rw [← hvk]; exact hp
      have hqk : q k = false := by rw [← hvk]; exact hq
      have hfilter_eq : ks.filter q = ks.filter p := by
        apply List.filter_congr
        intro x hx
        exact hsame x (fun he => hnd.1 (by rw [← hvk, ← he]; exact hx))
      rw [@List.filter_cons_of_neg _ q k ks (by simp [hqk]),
          @List.filter_cons_of_pos _ p k ks hpk,
          List.length_cons, hfilter_eq]
    · have hvks : v ∈ ks := by
        rcases List.mem_cons.mp hv with he | h2
        · exact absurd he hvk
        · exact h2
      have hIH := ih hnd.2 p q v hvks hp hq hsame
      have hqpk : q k = p k := hsame k (fun he => hvk he.symm)
      cases hpk : p k with
      | true =>
        rw [@List.filter_cons_of_pos _ q k ks (by rw [hqpk, hpk]),
            @List.filter_cons_of_pos _ p k ks hpk, List.length_cons, List.length_cons]
        omega
      | false =>
        rw [@List.filter_cons_of_neg _ q k ks (by simp [hqpk, hpk]),
            @List.filter_cons_of_neg _ p k ks (by simp [hpk])]
        exact hIH

theorem topo_scan_of_visit (g : Graph) (hacy : Acyclic g) (fuelN : Nat)
    (hV : TopoVisitSpec g fuelN) : TopoScanSpec g fuelN := by
  intro vertex ns visited stack
  induction ns generalizing visited stack with
  | nil =>
    intro hvert hvstk hkeys hedges hnd hstkvis hSC hPW hgrey hcount
    exact ⟨visited, stack, [], rfl, by rw [List.append_nil], fun n h => h, hnd, hstkvis,
      hSC, hPW, fun n h1 h2 => ⟨h1, h2⟩, fun x hx hx2 => absurd hx hx2,
      fun x hx => Or.inl hx, le_refl _, fun n hn => absurd hn (List.not_mem_nil n)⟩
  | cons m rest ihns =>
    intro hvert hvstk hkeys hedges hnd hstkvis hSC hPW hgrey hcount
    have hmkeys : m ∈ nodeKeys g := hkeys m (List.mem_cons_self m rest)
    have hmedge : edgeMem g vertex m = true := hedges m (List.mem_cons_self m rest)
    have hrest_keys : ∀ n ∈ rest, n ∈ nodeKeys g :=
      fun n hn => hkeys n (List.mem_cons_of_mem m hn)
    have hrest_edges : ∀ n ∈ rest, edgeMem g vertex n = true :=
      fun n hn => hedges n (List.mem_cons_of_mem m hn)
    by_cases hvm : visited m = true
    · have hmstk : m ∈ stack := by
        by_contra hns
        have hreach : Reach g m vertex := hgrey m hvm hns
        exact hacy m (Relation.TransGen.tail' hreach hmedge)
      obtain ⟨visited2, stack2, mid, hres, hstk2, hmono, hnd2, hvis2, hSC2, hPW2, hgs2,
          hnew2, hsrc2, hcnt2, hns2⟩ :=
        ihns visited stack hvert hvstk hrest_keys hrest_edges hnd hstkvis hSC hPW hgrey hcount
      refine ⟨visited2, stack2, mid, ?_, hstk2, hmono, hnd2, hvis2, hSC2, hPW2, hgs2,
          hnew2, hsrc2, hcnt2, ?_⟩
      · simp only [topo_scan, if_pos hvm, hres]
      · intro n hn
        rcases List.mem_cons.mp hn with he | hnr
        · rw [he, hstk2]
          exact List.mem_append_left mid hmstk
        · exact hns2 n hnr
    · have hvm' : visited m = false := by
        cases hb : visited m with
        | false => rfl
        | true => exact absurd hb hvm
      have hgreym : ∀ n, visited n = true → n ∉ stack → Reach g n m := by
        intro n h1 h2
        exact Relation.ReflTransGen.tail (hgrey n h1 h2) hmedge
      obtain ⟨visited1, stack1, mid1, hres1, hstk1, hmono1, hvism1, hnd1, hvis1, hSC1, hPW1,
          hgs1, hnew1, hsrc1, hcnt1⟩ :=
        hV m visited stack hvm' hmkeys hnd hstkvis hSC hPW hgreym hcount
      have hvert1 : visited1 vertex = true := hmono1 vertex hvert
      have hvstk1 : vertex ∉ stack1 := by
        intro hin
        have h2 := hnew1 vertex hin hvstk
        rw [hvert] at h2
        exact Bool.noConfusion h2
      have hgrey1 : ∀ n, visited1 n = true → n ∉ stack1 → Reach g n vertex := by
        intro n h1 h2
        obtain ⟨h3, h4⟩ := hgs1 n h1 h2
        exact hgrey n h3 h4
      have hcount1 : unvisitedCount g visited1 < fuelN := by omega
      obtain ⟨visited2, stack2, mid2, hres2, hstk2, hmono2, hnd2, hvis2, hSC2, hPW2, hgs2,
          hnew2, hsrc2, hcnt2, hns2⟩ :=
        ihns visited1 stack1 hvert1 hvstk1 hrest_keys hrest_edges hnd1 hvis1 hSC1 hPW1
          hgrey1 hcount1
      refine ⟨visited2, stack2, mid1 ++ [m] ++ mid2, ?_, ?_, ?_, hnd2, hvis2, hSC2, hPW2,
          ?_, ?_, ?_, ?_, ?_⟩
      · simp only [topo_scan, if_neg hvm, hres1, hres2]
      · rw [hstk2, hstk1]
        simp [List.append_assoc]
      · exact fun n h => hmono2 n (hmono1 n h)
      · intro n h1 h2
        obtain ⟨h3, h4⟩ := hgs2 n h1 h2
        exact hgs1 n h3 h4
      · intro x hx hxs
        by_cases hx1 : x ∈ stack1
        · exact hnew1 x hx1 hxs
        · have hv1x : visited1 x = false := hnew2 x hx hx1
          cases hb : visited x with
          | false => rfl
          | true =>
            rw [hmono1 x hb] at hv1x
            exact Bool.noConfusion hv1x
      · intro x hx
        by_cases hx1 : x ∈ stack1
        · rcases hsrc1 x hx1 with h | h
          · exact Or.inl h
          · exact Or.inr h
        · rcases hsrc2 x hx with h | h
          · exact absurd h hx1
          · exact Or.inr h
      · omega
      · intro n hn
        rcases List.mem_cons.mp hn with he | hnr
        · rw [he, hstk2]
          apply List.mem_append_left
          rw [hstk1]
          exact List.mem_append_right _ (List.mem_singleton_self m)
        · exact hns2 n hnr

theorem topo_visit_of_scan (g : Graph) (hWF : WF g) (f : Nat) (hS : TopoScanSpec g f) :
    TopoVisitSpec g (f + 1) := by
  intro vertex visited stack hvm hkeys hnd hstkvis hSC hPW hgrey hcount
  have hvek : vertex ∈ g.edges.map Prod.fst := by
    have h1 : vertex ∈ edgeKeys g := by rw [hWF.2.1]; exact hkeys
    exact h1
  obtain ⟨adjV, hadjV⟩ := dictGet?_isSome_of_mem hvek
  have hadj_keys : ∀ n ∈ adjV.map Prod.fst, n ∈ nodeKeys g := by
    intro n hn
    obtain ⟨q, hq, hq1⟩ := List.mem_map.mp hn
    have h2 := hWF.2.2.2 (vertex, adjV) (dictGet?_mem_entries hadjV) q hq
    exact hq1 ▸ h2
  have hadj_edges : ∀ n ∈ adjV.map Prod.fst, edgeMem g vertex n = true := by
    intro n hn
    rw [edgeMem_eq_dictMem_getD, hadjV]
    exact (dictMem_iff_mem_keys adjV n).mpr hn
  have hvert1 : upd visited vertex true vertex = true := upd_self _ _ _
  have hvstk : vertex ∉ stack := by
    intro hin
    have h2 := hstkvis vertex hin
    rw [hvm] at h2
    exact Bool.noConfusion h2
  have hmono01 : ∀ n, visited n = true → upd visited vertex true n = true := by
    intro n hn
    by_cases hnv : n = vertex
    · rw [hnv]; exact upd_self _ _ _
    · rw [upd_ne visited vertex n true hnv]; exact hn
  have hstkvis1 : ∀ x ∈ stack, upd visited vertex true x = true :=
    fun x hx => hmono01 x (hstkvis x hx)
  have hgrey1 : ∀ n, upd visited vertex true n = true → n ∉ stack → Reach g n vertex := by
    intro n h1 h2
    by_cases hnv : n = vertex
    · rw [hnv]; exact Relation.ReflTransGen.refl
    · refine hgrey n ?_ h2
      rw [upd_ne visited vertex n true hnv] at h1
      exact h1
  have hdrop : unvisitedCount g (upd visited vertex true) + 1 ≤ unvisitedCount g visited := by
    have h := filter_flip_single (nodeKeys g) hWF.1
      (fun n => !visited n) (fun n => !(upd visited vertex true n)) vertex hkeys
      (by show (!visited vertex) = true
          rw [hvm]
          rfl)
      (by show (!(upd visited vertex true vertex)) = false
          rw [upd_self]
          rfl)
      (by intro x hx
          show (!(upd visited vertex true x)) = (!visited x)
          rw [upd_ne visited vertex x true hx])
    exact h
  have hcount1 : unvisitedCount g (upd visited vertex true) < f := by omega
  obtain ⟨visited2, stack2, mid2, hres2, hstk2, hmono2, hnd2, hvis2, hSC2, hPW2, hgs2,
      hnew2, hsrc2, hcnt2, hns2⟩ :=
    hS vertex (adjV.map Prod.fst) (upd visited vertex true) stack hvert1 hvstk
      hadj_keys hadj_edges hnd hstkvis1 hSC hPW hgrey1 hcount1
  have hvs2 : vertex ∉ stack2 := by
    intro hin
    by_cases hs : vertex ∈ stack
    · exact hvstk hs
    · have h2 := hnew2 vertex hin hs
      rw [upd_self] at h2
      exact Bool.noConfusion h2
  refine ⟨visited2, stack2 ++ [vertex], mid2, ?_, ?_, ?_, ?_, ?_, ?_, ?_, ?_, ?_, ?_, ?_, ?_⟩
  · simp only [topo_visit, hadjV, hres2]
  · rw [hstk2]
  · exact fun n h => hmono2 n (hmono01 n h)
  · exact hmono2 vertex hvert1
  · refine List.nodup_append.mpr ⟨hnd2, List.nodup_singleton vertex, ?_⟩
    intro a ha hab
    rw [List.mem_singleton.mp hab] at ha
    exact hvs2 ha
  · intro x hx
    rcases List.mem_append.mp hx with h | h
    · exact hvis2 x h
    · rw [List.mem_singleton.mp h]
      exact hmono2 vertex hvert1
  · intro x hx y hxy
    rcases List.mem_append.mp hx with h | h
    · exact List.mem_append_left _ (hSC2 x h y hxy)
    · have hxv := List.mem_singleton.mp h
      rw [hxv] at hxy
      have hy : y ∈ adjV.map Prod.fst := by
        rw [edgeMem_eq_dictMem_getD, hadjV] at hxy
        exact (dictMem_iff_mem_keys adjV y).mp hxy
      exact List.mem_append_left _ (hns2 y hy)
  · rw [List.pairwise_append]
    refine ⟨hPW2, List.pairwise_singleton _ _, ?_⟩
    intro a ha b hb
    rw [List.mem_singleton.mp hb]
    show edgeMem g a vertex = false
    cases hc : edgeMem g a vertex with
    | false => rfl
    | true =>
      have h2 := hSC2 a ha vertex hc
      exact absurd h2 hvs2
  · intro n h1 h2
    have hn2 : n ∉ stack2 := fun hc => h2 (List.mem_append_left _ hc)
    have hnv : n ≠ vertex := fun hc =>
      h2 (by rw [hc]; exact List.mem_append_right _ (List.mem_singleton_self vertex))
    obtain ⟨h3, h4⟩ := hgs2 n h1 hn2
    rw [upd_ne visited vertex n true hnv] at h3
    exact ⟨h3, h4⟩
  · intro x hx hxs
    rcases List.mem_append.mp hx with h | h
    · have h2 := hnew2 x h hxs
      by_cases hxv : x = vertex
      · rw [hxv]; exact hvm
      · rw [upd_ne visited vertex x true hxv] at h2
        exact h2
    · rw [List.mem_singleton.mp h]
      exact hvm
  · intro x hx
    rcases List.mem_append.mp hx with h | h
    · exact hsrc2 x h
    · rw [List.mem_singleton.mp h]
      exact Or.inr hkeys
  · omega

theorem topo_bundle (g : Graph) (hWF : WF g) (hacy : Acyclic g) :
    ∀ fuelN, TopoVisitSpec g fuelN := by
  intro fuelN
  induction fuelN with
  | zero =>
    intro vertex visited stack h1 h2 h3 h4 h5 h6 h7 hcount
    exact absurd hcount (by omega)
  | succ f ih => exact topo_visit_of_scan g hWF f (topo_scan_of_visit g hacy f ih)

theorem topo_outer_spec (g : Graph) (hWF : WF g) (hacy : Acyclic g) :
    ∀ (keys : List NodeId) (visited : NodeId → Bool) (stack : List NodeId),
    (∀ n ∈ keys, n ∈ nodeKeys g) →
    stack.Nodup →
    (∀ x ∈ stack, visited x = true) →
    (∀ x ∈ stack, ∀ y, edgeMem g x y = true → y ∈ stack) →
    List.Pairwise (fun a b => edgeMem g a b = false) stack →
    (∀ n, visited n = true → n ∈ stack) →
    ∃ visited2 stack2,
      topo_outer g keys visited stack = Res.ok (visited2, stack2) ∧
      stack2.Nodup ∧
      (∀ x ∈ stack2, ∀ y, edgeMem g x y = true → y ∈ stack2) ∧
      List.Pairwise (fun a b => edgeMem g a b = false) stack2 ∧
      (∀ n, visited2 n = true → n ∈ stack2) ∧
      (∀ n, visited n = true → visited2 n = true) ∧
      (∀ n ∈ keys, visited2 n = true) ∧
      (∀ x ∈ stack2, x ∈ stack ∨ x ∈ nodeKeys g) := by
  intro keys
  induction keys with
  | nil =>
    intro visited stack hkeys hnd hstkvis hSC hPW hfull
    exact ⟨visited, stack, rfl, hnd, hSC, hPW, hfull, fun n h => h,
      fun n hn => absurd hn (List.not_mem_nil n), fun x hx => Or.inl hx⟩
  | cons k ks ih =>
    intro visited stack hkeys hnd hstkvis hSC hPW hfull
    have hkk : k ∈ nodeKeys g := hkeys k (List.mem_cons_self k ks)
    have hkrest : ∀ n ∈ ks, n ∈ nodeKeys g := fun n hn => hkeys n (List.mem_cons_of_mem k hn)
    by_cases hvk : visited k = true
    · obtain ⟨visited2, stack2, hres, hnd2, hSC2, hPW2, hfull2, hmono2, hall2, hsrc2⟩ :=
        ih visited stack hkrest hnd hstkvis hSC hPW hfull
      refine ⟨visited2, stack2, ?_, hnd2, hSC2, hPW2, hfull2, hmono2, ?_, hsrc2⟩
      · simp only [topo_outer, if_pos hvk, hres]
      · intro n hn
        rcases List.mem_cons.mp hn with he | hnr
        · rw [he]
          exact hmono2 k hvk
        · exact hall2 n hnr
    · have hvk' : visited k = false := by
        cases hb : visited k with
        | false => rfl
        | true => exact absurd hb hvk
      have hcnt : unvisitedCount g visited < g.nodes.length + 1 := by
        have h1 : unvisitedCount g visited ≤ (nodeKeys g).length := List.length_filter_le _ _
        have h2 : (nodeKeys g).length = g.nodes.length := List.length_map _ _
        omega
      have hgrey : ∀ n, visited n = true → n ∉ stack → Reach g n k := by
        intro n h1 h2
        exact absurd (hfull n h1) h2
      obtain ⟨visited1, stack1, mid1, hres1, hstk1, hmono1, hvisk1, hnd1, hvis1, hSC1, hPW1,
          hgs1, hnew1, hsrc1, hcnt1⟩ :=
        topo_bundle g hWF hacy (g.nodes.length + 1) k visited stack hvk' hkk hnd hstkvis hSC
          hPW hgrey hcnt
      have hfull1 : ∀ n, visited1 n = true → n ∈ stack1 := by
        intro n h1
        by_contra h2
        obtain ⟨h3, h4⟩ := hgs1 n h1 h2
        exact h4 (hfull n h3)
      obtain ⟨visited2, stack2, hres2, hnd2, hSC2, hPW2, hfull2, hmono2, hall2, hsrc2⟩ :=
        ih visited1 stack1 hkrest hnd1 hvis1 hSC1 hPW1 hfull1
      refine ⟨visited2, stack2, ?_, hnd2, hSC2, hPW2, hfull2, ?_, ?_, ?_⟩
      · simp only [topo_outer, if_neg hvk, hres1, hres2]
      · exact fun n h => hmono2 n (hmono1 n h)
      · intro n hn
        rcases List.mem_cons.mp hn with he | hnr
        · rw [he]
          exact hmono2 k hvisk1
        · exact hall2 n hnr
      · intro x hx
        rcases hsrc2 x hx with h | h
        · rcases hsrc1 x h with h2 | h2
          · exact Or.inl h2
          · exact Or.inr h2
        · exact Or.inr h

/-- C4: on every well-formed directed graph admitting a topological numbering (the
formalization of acyclicity, and exactly what makes is_acyclic answer true),
topological_sort returns a duplicate-free list holding every node, in which the source
of every edge appears strictly before its target. -/
theorem C4_topological_sort_correct (g : Graph) (hWF : WF g)
    (rank : NodeId → Nat) (hrank : ∀ p ∈ edgePairs g, rank p.1 < rank p.2) :
    ∃ l, topological_sort g = Res.ok l ∧ l.Nodup ∧
      (∀ n, n ∈ l ↔ n ∈ nodeKeys g) ∧
      (∀ u v, edgeMem g u v = true → ∃ l1 l2, l = l1 ++ u :: l2 ∧ v ∈ l2) := by
  have hacy : Acyclic g := acyclic_of_rank g rank hrank
  have hia : is_acyclic g = Res.ok true := is_acyclic_ok_true_of_acyclic g hWF hacy
  obtain ⟨visited2, stack2, hres, hnd2, hSC2, hPW2, hfull2, hmono2, hall2, hsrc2⟩ :=
    topo_outer_spec g hWF hacy (nodeKeys g) (fun _ => false) []
      (fun n hn => hn) List.nodup_nil
      (fun x hx => absurd hx (List.not_mem_nil x))
      (fun x hx => absurd hx (List.not_mem_nil x))
      List.Pairwise.nil
      (fun n hn => Bool.noConfusion hn)
  have hmem : ∀ n, n ∈ stack2 ↔ n ∈ nodeKeys g := by
    intro n
    constructor
    · intro hn
      rcases hsrc2 n hn with h | h
      · exact absurd h (List.not_mem_nil n)
      · exact h
    · intro hn
      exact hfull2 n (hall2 n hn)
  refine ⟨stack2.reverse, ?_, ?_, ?_, ?_⟩
  · simp only [topological_sort, hia, hres]
  · exact List.nodup_reverse.mpr hnd2
  · intro n
    rw [List.mem_reverse]
    exact hmem n
  · intro u v huv
    have hu : u ∈ stack2 := (hmem u).mpr (edgeMem_src_mem hWF huv)
    have hvs : v ∈ stack2 := hSC2 u hu v huv
    have huvne : u ≠ v := by
      intro he
      rw [he] at huv
      exact hacy v (Relation.TransGen.single huv)
    obtain ⟨f1, f2, hsplit⟩ := List.append_of_mem hu
    have hvf1 : v ∈ f1 := by
      rw [hsplit] at hvs
      rcases List.mem_append.mp hvs with h | h
      · exact h
      · rcases List.mem_cons.mp h with he | h2
        · exact absurd he.symm huvne
        · rw [hsplit] at hPW2
          have hfalse : edgeMem g u v = false :=
            (List.pairwise_cons.mp (List.pairwise_append.mp hPW2).2.1).1 v h2
          rw [huv] at hfalse
          exact Bool.noConfusion hfalse
    refine ⟨f2.reverse, f1.reverse, ?_, ?_⟩
    · rw [hsplit]
      simp
    · rw [List.mem_reverse]
      exact hvf1

/-- Witness for C4 on gC1 (edges 0→1, 1→2, 0→3) with the identity numbering. -/
theorem C4_topological_sort_correct_witness :
    WF gC1 ∧ (∀ p ∈ edgePairs gC1, (fun n => n : NodeId → Nat) p.1 < (fun n => n) p.2) ∧
    (∃ l, topological_sort gC1 = Res.ok l ∧ l.Nodup ∧
      (∀ n, n ∈ l ↔ n ∈ nodeKeys gC1) ∧
      (∀ u v, edgeMem gC1 u v = true → ∃ l1 l2, l = l1 ++ u :: l2 ∧ v ∈ l2)) :=
  ⟨by decide, by decide, C4_topological_sort_correct gC1 (by decide) (fun n => n) (by decide)⟩

/-- Witness for C6 on gC1 with endpoints 0 and 2. -/
theorem C6_shortest_path_contract_witness :
    WF gC1 ∧
    ((¬ (0 ∈ nodeKeys gC1 ∧ 2 ∈ nodeKeys gC1) →
        get_shortest_path gC1 0 2 = Res.valueError) ∧
     (0 ∈ nodeKeys gC1 → 2 ∈ nodeKeys gC1 →
      (2 = 0 → get_shortest_path gC1 0 2 = Res.ok [0]) ∧
      (¬ Reach gC1 0 2 → get_shortest_path gC1 0 2 = Res.ok []) ∧
      (2 ≠ 0 → Reach gC1 0 2 →
        ∃ l, get_shortest_path gC1 0 2 = Res.ok l ∧ l ≠ [] ∧
          l.head? = some 0 ∧ l.getLast? = some 2 ∧
          List.Chain' (fun a b => edgeMem gC1 a b = true) l))) :=
  ⟨by decide, C6_shortest_path_contract gC1 0 2 (by decide)⟩

end GraphSpec
